/-
Verification of the quantum_engine SCF core against its specification.

This file gives a shallow embedding, in Lean 4 over the real numbers, of the
Rust source under src/: the Gaussian-basis data model (basis/primitive.rs,
basis/shell.rs, basis/contracted.rs), the Boys function (integrals/boys.rs),
the one-electron integrals (integrals/overlap.rs, overlap_contracted.rs,
nuclear_attraction.rs), the two-electron integrals with Schwarz screening
(integrals/eri/*), the J/K builder (scf/jk.rs), the Roothaan solver
(scf/utils.rs), the closed-shell SCF cycle (scf/scf_cycle.rs), the density
builder (scf/density.rs) and the DIIS accelerator (scf/diis.rs).

Conventions of the embedding:
* `f64` is idealised as `ℝ`; machine rounding is not modelled.
* Rust `Vec<f64>` / `Vec<Vec<f64>>` matrices become total functions
  `ℕ → ℝ` / `ℕ → ℕ → ℝ` together with explicit size parameters; entries
  outside the size are irrelevant and statements are made on valid indices.
* A Rust `panic!` is a `none` of an `Option` result; code with no panic path
  embeds as a total function.
* The external numerical backends (nalgebra's `SymmetricEigen`, the libxc
  functional evaluation inside `build_vxc`) are taken as explicit function
  parameters (oracles), exactly at the call boundary the source uses them.
* Loops embed as folds or `Finset` sums over `Finset.range`; unbounded
  `loop`/`break` constructs embed with an explicit fuel argument that is
  large enough that the break fires first on every input considered here.
-/
import Mathlib

noncomputable section

/-! ## Basic containers: 3-vectors, matrices -/

/-- A point or vector in ℝ³, the embedding of the Rust `[f64; 3]`. -/
structure V3 where
  x : ℝ
  y : ℝ
  z : ℝ

/-- An angular-momentum triple, the embedding of `[usize; 3]`. -/
structure Ang3 where
  lx : ℕ
  ly : ℕ
  lz : ℕ
deriving DecidableEq

/-- Total angular momentum `lx + ly + lz`. -/
def Ang3.total (a : Ang3) : ℕ := a.lx + a.ly + a.lz

/-- The all-zero (s-type) angular momentum triple. -/
def Ang3.s : Ang3 := ⟨0, 0, 0⟩

/-- AO matrices (`Vec<Vec<f64>>` in the source) as index functions. -/
abbrev Mat : Type := ℕ → ℕ → ℝ

/-- Vectors (`Vec<f64>` in the source) as index functions. -/
abbrev Vec1 : Type := ℕ → ℝ

/-- The zero matrix, the embedding of `vec![vec![0.0; n]; n]`. -/
def zeroMat : Mat := fun _ _ => 0

/-- Squared distance `|A-B|²` between two points; embeds the `dist2` helper
that appears in overlap.rs, nuclear_attraction.rs and eri_ssss.rs. -/
def dist2 (a b : V3) : ℝ :=
  (a.x - b.x) * (a.x - b.x) + (a.y - b.y) * (a.y - b.y) + (a.z - b.z) * (a.z - b.z)

/-! ## Basis data model (basis/primitive.rs, basis/shell.rs, basis/contracted.rs) -/

/-- One primitive Cartesian Gaussian (`Primitive` in basis/primitive.rs).
The source also stores the normalization constant `norm`, but its constructor
`Primitive::new` always sets it to `normalization(exponent, ang)`; we embed
the field as the derived function `Primitive.norm` below. -/
structure Primitive where
  exponent : ℝ
  coefficient : ℝ
  center : V3
  ang : Ang3

/-- `Primitive::normalization`: `(2α/π)^0.75 * sqrt((4α)^l)`. -/
def Primitive.norm (p : Primitive) : ℝ :=
  (2 * p.exponent / Real.pi) ^ (0.75 : ℝ) *
    Real.sqrt ((4 * p.exponent) ^ p.ang.total)

/-- A contracted AO (`Contracted` in basis/contracted.rs): a list of
primitives. -/
structure Contracted where
  primitives : List Primitive

/-- A shell (`Shell` in basis/shell.rs). -/
structure Shell where
  primitives : List Primitive
  ang : Ang3
  center : V3
  offset : ℕ

/-- `Shell::n_orbitals`: number of Cartesian AOs, `(l+1)(l+2)/2` for total
angular momentum `l`. -/
def Shell.n_orbitals (s : Shell) : ℕ :=
  (s.ang.total + 1) * (s.ang.total + 2) / 2

/-- `Shell::cartesian_components`: the list of `(lx,ly,lz)` triples with
`lx+ly+lz = l`, enumerated with `lx` outermost, then `ly`. -/
def Shell.cartesian_components (s : Shell) : List Ang3 :=
  let l := s.ang.total
  (List.range (l + 1)).flatMap fun lx =>
    (List.range (l - lx + 1)).map fun ly => ⟨lx, ly, l - lx - ly⟩

/-! ## Boys function (integrals/boys.rs) -/

/-- The threshold `T_SMALL = 1e-8` of boys.rs. -/
def tSmall : ℝ := 1e-8

/-- The `loop` body of `boys_small_t`, with an explicit fuel argument
bounding the number of iterations (the source loop always terminates via its
`break`; every evaluation in this file breaks within the given fuel).
State: accumulated `sum`, current `term`, counter `k`. -/
def boysSmallTGo (n : ℕ) (t : ℝ) : ℕ → ℝ → ℝ → ℕ → ℝ
  | 0, sum, _, _ => sum
  | fuel + 1, sum, term, k =>
    let denom : ℝ := (2 * n + 2 * k + 1 : ℕ)
    let contrib := term / denom
    let sum := sum + contrib
    let k := k + 1
    let term := term * (-t / (k : ℝ))
    if |term| < 1e-16 then sum else boysSmallTGo n t fuel sum term k

/-- `boys_small_t`: alternating power series around T = 0. -/
def boys_small_t (n : ℕ) (t : ℝ) : ℝ :=
  boysSmallTGo n t 1000 0 1 0

/-- The rational erf approximation (Abramowitz & Stegun 7.1.26) of boys.rs. -/
def erfAS (x : ℝ) : ℝ :=
  let a1 : ℝ := 0.254829592
  let a2 : ℝ := -0.284496736
  let a3 : ℝ := 1.421413741
  let a4 : ℝ := -1.453152027
  let a5 : ℝ := 1.061405429
  let p : ℝ := 0.3275911
  let sign : ℝ := if x < 0 then -1 else 1
  let x := |x|
  let t := 1 / (1 + p * x)
  let y := 1 - (((((a5 * t + a4) * t + a3) * t + a2) * t + a1) * t * Real.exp (-x * x))
  sign * y

/-- `boys_general`: F₀ from erf, then upward recurrence
`F_{m+1} = ((2m+1)F_m − e^{-T})/(2T)` for `m = 0..n-1`.
The Rust `for m in 0..n` loop is unrolled here as a recursion on `n` running
the index upward from 0, matching the source's iteration order. -/
def boysGeneralLoop (exp_t t : ℝ) (f0 : ℝ) : ℕ → ℝ
  | 0 => f0
  | m + 1 => ((2 * (m : ℝ) + 1) * boysGeneralLoop exp_t t f0 m - exp_t) / (2 * t)

/-- `boys_general(n, t)`. -/
def boys_general (n : ℕ) (t : ℝ) : ℝ :=
  let sqrt_t := Real.sqrt t
  let f0 := 0.5 * Real.sqrt (Real.pi / t) * erfAS sqrt_t
  if n = 0 then f0
  else boysGeneralLoop (Real.exp (-t)) t f0 n

/-- `boys(n, t)`: regime dispatch at `T_SMALL`. -/
def boys (n : ℕ) (t : ℝ) : ℝ :=
  if t < tSmall then boys_small_t n t else boys_general n t

/-- A stand-in for `libm::erf` (an external, correctly-rounded error
function), written as the Gauss error integral. Only the branch of `boys0`
that avoids it is ever evaluated in this file, so no property of it is
used. -/
def erfLibm (x : ℝ) : ℝ :=
  (2 / Real.sqrt Real.pi) * ∫ u in (0:ℝ)..x, Real.exp (-(u * u))

/-- `boys0(t)`: the separate F₀ helper at the bottom of boys.rs, used by the
ERI and nuclear-attraction paths; `libm::erf` is the external error
function `erfLibm`. -/
def boys0 (t : ℝ) : ℝ :=
  if t < 1e-8 then 1
  else 0.5 * Real.sqrt (Real.pi / t) * erfLibm (Real.sqrt t)

/-! ## Option plumbing for panics

A Rust `panic!` aborts the computation; a function that may panic embeds as
an `Option`-valued function, and a sum over possibly-panicking summands
short-circuits to `none` when any summand panics. -/

/-- Sum a list of possibly-panicking values, `none` if any is `none`. -/
def optionSum (l : List (Option ℝ)) : Option ℝ :=
  l.foldl (fun acc v => acc.bind fun a => v.map fun x => a + x) (some 0)

/-! ## System data (system/atom.rs) -/

/-- An atom (`Atom` in system/atom.rs); the symbol string plays no role in
the numerics and is omitted. -/
structure Atom where
  atomic_number : ℕ
  position : V3

/-! ## Overlap integrals (integrals/overlap.rs, overlap_contracted.rs) -/

/-- `overlap_ss`: primitive (s|s) overlap via the Gaussian product theorem,
`(π/ζ)^1.5 · exp(−αβ/ζ·|A−B|²) · N_a · N_b`. -/
def overlap_ss (a b : Primitive) : ℝ :=
  let alpha := a.exponent
  let beta := b.exponent
  let rab2 := dist2 a.center b.center
  let zeta := alpha + beta
  let prefactor := (Real.pi / zeta) ^ (1.5 : ℝ)
  let k_ab := Real.exp (-alpha * beta / zeta * rab2)
  prefactor * k_ab * a.norm * b.norm

/-- `overlap_primitive`: only (s|s) is implemented; any higher angular
momentum panics (`none`). -/
def overlap_primitive (a b : Primitive) : Option ℝ :=
  if a.ang = Ang3.s ∧ b.ang = Ang3.s then some (overlap_ss a b) else none

/-- `overlap_contracted`: `Σ_p Σ_q ⟨φ_p|φ_q⟩` over the two primitive lists
(overlap_contracted.rs). -/
def overlap_contracted (a b : Contracted) : Option ℝ :=
  optionSum (a.primitives.flatMap fun pa =>
    b.primitives.map fun pb => overlap_primitive pa pb)

/-- `overlap_shell_shell` (the contracted-shell version of
overlap_contracted.rs): an `na × nb` matrix every entry of which is the same
`overlap_contracted` value, because each Cartesian AO of a shell shares the
shell's primitive list (`Contracted::new(shell.primitives.clone())` for
every component). Entries outside the block are irrelevant and set to 0. -/
def overlap_shell_shell (shell_a shell_b : Shell) : Option Mat :=
  let na := shell_a.cartesian_components.length
  let nb := shell_b.cartesian_components.length
  (overlap_contracted ⟨shell_a.primitives⟩ ⟨shell_b.primitives⟩).map
    fun v => fun i j => if i < na ∧ j < nb then v else 0

/-! ## Nuclear attraction (integrals/nuclear_attraction.rs) -/

/-- `nuclear_attraction_primitive`: the (s|s) closed form
`−2πZ/ζ · exp(−αβ/ζ·|A−B|²) · F₀(ζ|P−C|²) · N_a · N_b`.
Note that, unlike `overlap_primitive` and `kinetic_primitive`, this function
performs no check on the angular momentum of its arguments: it evaluates the
s-type formula for every primitive pair. -/
def nuclear_attraction_primitive (a b : Primitive) (atom : Atom) : ℝ :=
  let alpha := a.exponent
  let beta := b.exponent
  let A := a.center
  let B := b.center
  let C := atom.position
  let z : ℝ := atom.atomic_number
  let zeta := alpha + beta
  let P : V3 := ⟨(alpha * A.x + beta * B.x) / zeta,
                 (alpha * A.y + beta * B.y) / zeta,
                 (alpha * A.z + beta * B.z) / zeta⟩
  let rpc2 := dist2 P C
  let rab2 := dist2 A B
  let pref := -2 * Real.pi * z / zeta
  let kab := Real.exp (-alpha * beta / zeta * rab2)
  let t := zeta * rpc2
  pref * kab * boys0 t * a.norm * b.norm

/-! ## Two-electron integrals (integrals/eri/) -/

/-- Component access `v[d]` of a `[f64; 3]`; call sites only use d ∈ {0,1,2}. -/
def V3.nth (v : V3) (d : ℕ) : ℝ :=
  match d with
  | 0 => v.x
  | 1 => v.y
  | _ => v.z

/-- `eri_ssss`: the primitive (ss|ss) integral (eri_ssss.rs):
`2π^2.5/(ζη√(ζ+η)) · K_AB · K_CD · F₀(T)` times the four contraction
coefficients, with `T = ζη/(ζ+η)·|P−Q|²`. -/
def eri_ssss (p q r s : Primitive) : ℝ :=
  let a := p.exponent
  let b := q.exponent
  let c := r.exponent
  let d := s.exponent
  let A := p.center
  let B := q.center
  let C := r.center
  let D := s.center
  let zeta := a + b
  let eta := c + d
  let P : V3 := ⟨(a * A.x + b * B.x) / zeta, (a * A.y + b * B.y) / zeta,
                 (a * A.z + b * B.z) / zeta⟩
  let Q : V3 := ⟨(c * C.x + d * D.x) / eta, (c * C.y + d * D.y) / eta,
                 (c * C.z + d * D.z) / eta⟩
  let rab2 := dist2 A B
  let rcd2 := dist2 C D
  let rpq2 := dist2 P Q
  let k_ab := Real.exp (-a * b / zeta * rab2)
  let k_cd := Real.exp (-c * d / eta * rcd2)
  let prefactor := 2 * Real.pi ^ (2.5 : ℝ) / (zeta * eta * Real.sqrt (zeta + eta))
  let t := zeta * eta / (zeta + eta) * rpq2
  let value := prefactor * k_ab * k_cd * boys0 t
  value * p.coefficient * q.coefficient * r.coefficient * s.coefficient

/-- The Gaussian product center `P` of eri_vrr.rs. -/
def gaussian_product_center (a b : Primitive) : V3 :=
  let alpha := a.exponent
  let beta := b.exponent
  let zeta := alpha + beta
  let A := a.center
  let B := b.center
  ⟨(alpha * A.x + beta * B.x) / zeta, (alpha * A.y + beta * B.y) / zeta,
   (alpha * A.z + beta * B.z) / zeta⟩

/-- `eri_psss` (eri_vrr.rs): `(P_dir − A_dir) · (ss|ss)`. -/
def eri_psss (a b c d : Primitive) (dir : ℕ) : ℝ :=
  let P := gaussian_product_center a b
  let A := a.center
  (P.nth dir - A.nth dir) * eri_ssss a b c d

/-- `eri_ppss` (eri_vrr.rs). -/
def eri_ppss (a b c d : Primitive) (i j : ℕ) : ℝ :=
  let P := gaussian_product_center a b
  let A := a.center
  let pj := eri_psss a b c d j
  let ssss := eri_ssss a b c d
  let zeta := a.exponent + b.exponent
  let delta : ℝ := if i = j then 1 else 0
  (P.nth i - A.nth i) * pj + delta / (2 * zeta) * ssss

/-- `eri_dsss` (eri_vrr.rs). -/
def eri_dsss (a b c d : Primitive) (i j : ℕ) : ℝ :=
  let P := gaussian_product_center a b
  let A := a.center
  let pj := eri_psss a b c d j
  let pi' := eri_psss a b c d i
  let zeta := a.exponent + b.exponent
  let delta : ℝ := if i = j then 1 else 0
  (P.nth i - A.nth i) * pj + delta / (2 * zeta) * pi'

/-- `eri_fsss` (eri_vrr.rs). -/
def eri_fsss (a b c d : Primitive) (i j k : ℕ) : ℝ :=
  let P := gaussian_product_center a b
  let A := a.center
  let dij := eri_dsss a b c d j k
  let pj := eri_psss a b c d j
  let zeta := a.exponent + b.exponent
  let delta : ℝ := if j = k then 1 else 0
  (P.nth i - A.nth i) * dij + delta / (2 * zeta) * pj

/-- The direction multiset `[l,m,n] → repeated axis indices` used by
`cartesian_pair` and `cartesian_triplet` in eri_contracted.rs. -/
def angAxes (a : Ang3) : List ℕ :=
  List.replicate a.lx 0 ++ List.replicate a.ly 1 ++ List.replicate a.lz 2

/-- `cartesian_pair`: the first two axis indices. -/
def cartesian_pair (a : Ang3) : ℕ × ℕ :=
  ((angAxes a).getD 0 0, (angAxes a).getD 1 0)

/-- `cartesian_triplet`: the first three axis indices. -/
def cartesian_triplet (a : Ang3) : ℕ × ℕ × ℕ :=
  ((angAxes a).getD 0 0, (angAxes a).getD 1 0, (angAxes a).getD 2 0)

/-- `eri_primitive_dispatch` (eri_contracted.rs): dispatch on the total
angular momentum of the FIRST primitive only; `l > 4` panics (`none`). -/
def eri_primitive_dispatch (a b c d : Primitive) : Option ℝ :=
  match a.ang.total with
  | 0 => some (eri_ssss a b c d)
  | 1 =>
    let dir := if a.ang.lx = 1 then 0 else if a.ang.ly = 1 then 1 else 2
    some (eri_psss a b c d dir)
  | 2 =>
    let ij := cartesian_pair a.ang
    some (eri_ppss a b c d ij.1 ij.2)
  | 3 =>
    let ij := cartesian_pair a.ang
    some (eri_dsss a b c d ij.1 ij.2)
  | 4 =>
    let ijk := cartesian_triplet a.ang
    some (eri_fsss a b c d ijk.1 ijk.2.1 ijk.2.2)
  | _ => none

/-- `eri_ao_ao`: quadruple sum of primitive dispatches over the four
contraction lists. -/
def eri_ao_ao (a b c d : Contracted) : Option ℝ :=
  optionSum (a.primitives.flatMap fun pa =>
    b.primitives.flatMap fun pb =>
      c.primitives.flatMap fun pc =>
        d.primitives.map fun pd => eri_primitive_dispatch pa pb pc pd)

/-- `eri_contracted`: stable wrapper over `eri_ao_ao`. -/
def eri_contracted (a b c d : Contracted) : Option ℝ :=
  eri_ao_ao a b c d

/-- `eri_shell_shell` (eri_shell.rs): the `(μν|μν)`-style block between two
shells. Every entry is the same `eri_contracted(ca, cb, ca, cb)` value
because each Cartesian AO of a shell shares the shell's primitive list. -/
def eri_shell_shell (shell_a shell_b : Shell) : Option Mat :=
  let na := shell_a.n_orbitals
  let nb := shell_b.n_orbitals
  (eri_contracted ⟨shell_a.primitives⟩ ⟨shell_b.primitives⟩
      ⟨shell_a.primitives⟩ ⟨shell_b.primitives⟩).map
    fun v => fun i j => if i < na ∧ j < nb then v else 0

/-- The row-major `max(...)` fold over the |entries| of an `na × nb` block,
starting from `0.0`, as in `schwarz_shell_pair`. -/
def matMaxAbs (na nb : ℕ) (M : Mat) : ℝ :=
  ((List.range na).flatMap fun i => (List.range nb).map fun j => (i, j)).foldl
    (fun m p => max m |M p.1 p.2|) 0

/-- `schwarz_shell_pair` (schwarz.rs): `sqrt(max|(aa|aa)| * max|(bb|bb)|)`,
where the two maxima run over the diagonal blocks `eri_shell_shell(a,a)` and
`eri_shell_shell(b,b)`. -/
def schwarz_shell_pair (shell_a shell_b : Shell) : Option ℝ :=
  (eri_shell_shell shell_a shell_a).bind fun eri_aa =>
    (eri_shell_shell shell_b shell_b).map fun eri_bb =>
      let max_a := matMaxAbs shell_a.n_orbitals shell_a.n_orbitals eri_aa
      let max_b := matMaxAbs shell_b.n_orbitals shell_b.n_orbitals eri_bb
      Real.sqrt (max_a * max_b)

/-- The flattened index `((i·nb + j)·nc + k)·nd + l` of the 4-shell ERI
block. -/
def eriIdx (nb nc nd i j k l : ℕ) : ℕ :=
  ((i * nb + j) * nc + k) * nd + l

/-- `eri_shell_shell_shell_shell` (eri_shell.rs, re-exported by
eri_contracted.rs and used by scf/jk.rs): the flattened `(μν|λσ)` tensor for
a shell quartet, with Schwarz screening at cutoff `1e-12`; a screened-out
quartet yields the zero vector, and otherwise every slot holds the same
`eri_contracted` value of the four shells' contraction lists. -/
def eri_shell_shell_shell_shell (sa sb sc sd : Shell) : Option Vec1 :=
  let na := sa.n_orbitals
  let nb := sb.n_orbitals
  let nc := sc.n_orbitals
  let nd := sd.n_orbitals
  (schwarz_shell_pair sa sb).bind fun bound_ab =>
    (schwarz_shell_pair sc sd).bind fun bound_cd =>
      if bound_ab * bound_cd < 1e-12 then some (fun _ => 0)
      else
        (eri_contracted ⟨sa.primitives⟩ ⟨sb.primitives⟩ ⟨sc.primitives⟩
            ⟨sd.primitives⟩).map
          fun v => fun m => if m < na * nb * nc * nd then v else 0

/-! ## J and K builder (scf/jk.rs)

A shell list is embedded as a count `ns` and an index function `sh`; the
AO-offset scan of jk.rs (`shell_offsets`) is the partial-sum function
`shellOffset`. The nested accumulation loops are folds of point updates
`addAt` over the flattened index lists; the `shell_centers` argument of the
source is never read by `build_jk` and is omitted. -/

/-- `shell_offsets[a]`: sum of `n_orbitals` of the shells before `a`. -/
def shellOffset (sh : ℕ → Shell) (a : ℕ) : ℕ :=
  ∑ s ∈ Finset.range a, (sh s).n_orbitals

/-- One accumulation `m[r][c] += v` into a matrix. -/
def addAt (M : Mat) (r c : ℕ) (v : ℝ) : Mat :=
  fun i j => if i = r ∧ j = c then M i j + v else M i j

/-- The flattened nested ranges `for ia in 0..na { ... for il in 0..nd }`. -/
def idxList4 (na nb nc nd : ℕ) : List (ℕ × ℕ × ℕ × ℕ) :=
  (List.range na).flatMap fun ia =>
    (List.range nb).flatMap fun ib =>
      (List.range nc).flatMap fun ic =>
        (List.range nd).map fun il => (ia, ib, ic, il)

/-- The inner four loops of `build_jk` for one shell quartet: for each
`(ia,ib,ic,il)`, `J[μ][ν] += P[λ][σ]·eri` and `K[μ][λ] += P[ν][σ]·eri` with
`μ = oa+ia`, `ν = ob+ib`, `λ = oc+ic`, `σ = od+il`. -/
def jkAccum (oa ob oc od nb nc nd : ℕ) (P : Mat) (blk : Vec1)
    (items : List (ℕ × ℕ × ℕ × ℕ)) (jk : Mat × Mat) : Mat × Mat :=
  items.foldl
    (fun s e =>
      let mu := oa + e.1
      let nu := ob + e.2.1
      let lam := oc + e.2.2.1
      let sig := od + e.2.2.2
      let eri := blk (eriIdx nb nc nd e.1 e.2.1 e.2.2.1 e.2.2.2)
      (addAt s.1 mu nu (P lam sig * eri), addAt s.2 mu lam (P nu sig * eri)))
    jk

/-- The flattened quartet loop `for a { for b { for c { for d }}}}`. -/
def quartetList (ns : ℕ) : List (ℕ × ℕ × ℕ × ℕ) :=
  idxList4 ns ns ns ns

/-- `build_jk` (scf/jk.rs): fold the per-quartet accumulation over all shell
quartets, starting from zero J and K; a panicking ERI block aborts the whole
build (`none`). -/
def build_jk (ns : ℕ) (sh : ℕ → Shell) (P : Mat) : Option (Mat × Mat) :=
  (quartetList ns).foldl
    (fun st q =>
      st.bind fun jk =>
        (eri_shell_shell_shell_shell (sh q.1) (sh q.2.1) (sh q.2.2.1)
            (sh q.2.2.2)).map fun blk =>
          jkAccum (shellOffset sh q.1) (shellOffset sh q.2.1)
            (shellOffset sh q.2.2.1) (shellOffset sh q.2.2.2)
            (sh q.2.1).n_orbitals (sh q.2.2.1).n_orbitals
            (sh q.2.2.2).n_orbitals P blk
            (idxList4 (sh q.1).n_orbitals (sh q.2.1).n_orbitals
              (sh q.2.2.1).n_orbitals (sh q.2.2.2).n_orbitals) jk)
    (some (zeroMat, zeroMat))

/-! ## Density matrices (scf/density.rs) -/

/-- `build_density`: `P_μν = 2 Σ_{i<nelec/2} C_μi C_νi` (RHF). -/
def build_density (coeff : Mat) (n_electrons : ℕ) : Mat :=
  fun mu nu => 2 * ∑ i ∈ Finset.range (n_electrons / 2), coeff mu i * coeff nu i

/-- `rms_density_diff` over an `nao × nao` pair of densities. -/
def rms_density_diff (nao : ℕ) (p_old p_new : Mat) : ℝ :=
  Real.sqrt ((∑ mu ∈ Finset.range nao, ∑ nu ∈ Finset.range nao,
    (p_new mu nu - p_old mu nu) * (p_new mu nu - p_old mu nu)) / (nao * nao : ℕ))

/-! ## Roothaan solver (scf/utils.rs)

nalgebra's `SymmetricEigen::new` is an external numerical backend; it enters
the embedding as an oracle `eig` mapping a matrix to its (eigenvalues,
eigenvector-matrix) pair, used exactly at the two call sites of
`solve_roothaan`. -/

/-- An eigendecomposition oracle: the embedding of `SymmetricEigen::new`. -/
abbrev EigOracle : Type := Mat → Vec1 × Mat

/-- `n`-dimensional matrix product. -/
def matMul (n : ℕ) (A B : Mat) : Mat :=
  fun i j => ∑ k ∈ Finset.range n, A i k * B k j

/-- Matrix transpose. -/
def matT (A : Mat) : Mat := fun i j => A j i

/-- `solve_roothaan` (scf/utils.rs): `X = V·diag(1/√λ)·Vᵀ` from the
eigendecomposition of S (no check on the sign of the eigenvalues), then
diagonalize `F' = Xᵀ F X` and return `C = X·U` with the eigenvalues of F'.
Note the function is total: a non-positive overlap eigenvalue is fed to
`1/sqrt` unchecked rather than reported as an error. -/
def solve_roothaan (eig : EigOracle) (n : ℕ) (fock overlap : Mat) : Mat × Vec1 :=
  let s_eig := eig overlap
  let s_inv_sqrt : Mat := fun i j =>
    if i = j ∧ i < n then 1 / Real.sqrt (s_eig.1 i) else 0
  let x := matMul n (matMul n s_eig.2 s_inv_sqrt) (matT s_eig.2)
  let f_prime := matMul n (matMul n (matT x) fock) x
  let feig := eig f_prime
  (matMul n x feig.2, feig.1)

/-! ## SCF cycle (scf/scf_cycle.rs)

`build_vxc` wraps the external libxc backend and the numerical grid; an
active functional enters the embedding as the oracle
`density ↦ (Vxc matrix, Exc, ∫ρ·vxc)`, which is the exact data scf_cycle.rs
reads from `build_vxc(shells, shell_centers, p, None, None, atoms, xc)` (the
other arguments are fixed for a run and absorbed into the oracle). -/

/-- An active exchange-correlation method, represented by the behaviour of
`build_vxc` on the current density. -/
abbrev VxcOracle : Type := Mat → Mat × ℝ × ℝ

/-- `ScfOptions` of scf_cycle.rs; `xc_method: None` is plain HF. -/
structure ScfOptions where
  max_iter : ℕ
  conv_tol : ℝ
  xc_method : Option VxcOracle

/-- `ScfResult` of scf_cycle.rs. -/
structure ScfResult where
  energy : ℝ
  density : Mat

/-- One iteration of the SCF loop body of `scf_cycle`: build J/K, assemble
`F = H + 2J − K` (plus `Vxc` when a functional is active), solve Roothaan,
build the new density, and compute the electronic energy
`½·Σ P_new·(H + F)` plus, when a functional is active, the correction
`Exc − ∫ρ·vxc`. Returns `(new density, energy)`. -/
def scf_iterate (eig : EigOracle) (ns : ℕ) (sh : ℕ → Shell) (nao nelec : ℕ)
    (h_core overlap : Mat) (xc : Option VxcOracle) (p : Mat) :
    Option (Mat × ℝ) :=
  (build_jk ns sh p).map fun jk =>
    let fock0 : Mat := fun i j => h_core i j + (2 * jk.1 i j - jk.2 i j)
    let xcr := xc.map fun vx => vx p
    let fock : Mat :=
      match xcr with
      | none => fock0
      | some r => fun i j => fock0 i j + r.1 i j
    let dft_energy_exc : ℝ := match xcr with | none => 0 | some r => r.2.1
    let dft_energy_rho_vxc : ℝ := match xcr with | none => 0 | some r => r.2.2
    let ce := solve_roothaan eig nao fock overlap
    let p_new := build_density ce.1 nelec
    let energy0 := 0.5 * ∑ i ∈ Finset.range nao, ∑ j ∈ Finset.range nao,
      p_new i j * (h_core i j + fock i j)
    let energy :=
      if xc.isSome then energy0 + (dft_energy_exc - dft_energy_rho_vxc)
      else energy0
    (p_new, energy)

/-- The `for iter in 0..max_iter` loop of `scf_cycle`: return the result as
soon as `|ΔE| < conv_tol`, carry `(p, energy_old)` otherwise; falling off the
end of the loop is the source's `panic!`, i.e. `none`. -/
def scfLoop (eig : EigOracle) (ns : ℕ) (sh : ℕ → Shell) (nao nelec : ℕ)
    (h_core overlap : Mat) (xc : Option VxcOracle) (conv_tol : ℝ) :
    ℕ → Mat → ℝ → Option ScfResult
  | 0, _, _ => none
  | fuel + 1, p, energy_old =>
    (scf_iterate eig ns sh nao nelec h_core overlap xc p).bind fun pe =>
      let delta_e := |pe.2 - energy_old|
      if delta_e < conv_tol then some ⟨pe.2, pe.1⟩
      else scfLoop eig ns sh nao nelec h_core overlap xc conv_tol fuel pe.1 pe.2

/-- `scf_cycle` (scf_cycle.rs): start from the zero density and
`energy_old = 0`, iterate up to `max_iter` times. -/
def scf_cycle (eig : EigOracle) (ns : ℕ) (sh : ℕ → Shell) (nelec : ℕ)
    (h_core overlap : Mat) (options : ScfOptions) : Option ScfResult :=
  let nao := ∑ s ∈ Finset.range ns, (sh s).n_orbitals
  scfLoop eig ns sh nao nelec h_core overlap options.xc_method options.conv_tol
    options.max_iter zeroMat 0

/-! ## DIIS (scf/diis.rs)

Error matrices arrive as `Vec<Vec<f64>>` and are flattened to `Vec<f64>`;
these embed as `List (List ℝ)` and `List ℝ`. The small Gaussian-elimination
solver works on a square matrix indexed by `Fin n`. -/

/-- `flatten`: row-major flattening of an error matrix. -/
def flattenLL (m : List (List ℝ)) : List ℝ := m.flatten

/-- `dot`: elementwise product sum of two flattened vectors. -/
def dotL (a b : List ℝ) : ℝ := ((a.zip b).map fun p => p.1 * p.2).sum

/-- The pivot search of `solve_linear`: start from row `i`, scan rows
`i+1..n` and move to any row with strictly larger `|a[k][i]|`. -/
def pivotChoice (n : ℕ) (A : Matrix (Fin n) (Fin n) ℝ) (i : Fin n) : Fin n :=
  ((List.finRange n).filter fun k => i < k).foldl
    (fun mx k => if |A k i| > |A mx i| then k else mx) i

/-- Row swap `a.swap(i, max)` (and the matching `b.swap`). -/
def swapRowsM (n : ℕ) (A : Matrix (Fin n) (Fin n) ℝ) (r₁ r₂ : Fin n) :
    Matrix (Fin n) (Fin n) ℝ :=
  A.submatrix (Equiv.swap r₁ r₂) id

/-- The normalization step: divide row `i`, columns `i..n`, and `b[i]`, by
the pivot `diag = a[i][i]`. -/
def normalizeStep (n : ℕ) (A : Matrix (Fin n) (Fin n) ℝ) (b : Fin n → ℝ)
    (i : Fin n) : Matrix (Fin n) (Fin n) ℝ × (Fin n → ℝ) :=
  let diag := A i i
  (Matrix.of fun k j => if k = i ∧ i ≤ j then A k j / diag else A k j,
   fun k => if k = i then b k / diag else b k)

/-- The elimination of one row `k ≠ i` (columns `i..n`, and `b[k]`). -/
def elimRow (n : ℕ) (i : Fin n)
    (st : Matrix (Fin n) (Fin n) ℝ × (Fin n → ℝ)) (k : Fin n) :
    Matrix (Fin n) (Fin n) ℝ × (Fin n → ℝ) :=
  if k = i then st
  else
    let factor := st.1 k i
    (Matrix.of fun q j => if q = k ∧ i ≤ j then st.1 q j - factor * st.1 i j
       else st.1 q j,
     fun q => if q = k then st.2 q - factor * st.2 i else st.2 q)

/-- The `for i in 0..n` loop of `solve_linear`: pivot, bail out (`None`) on a
pivot below `1e-12`, swap, normalize, eliminate every other row, continue.
The fuel equals the number of remaining columns. -/
def geLoop (n : ℕ) : ℕ → ℕ → Matrix (Fin n) (Fin n) ℝ → (Fin n → ℝ) →
    Option (Fin n → ℝ)
  | 0, _, _, b => some b
  | fuel + 1, i, A, b =>
    if h : i < n then
      let fi : Fin n := ⟨i, h⟩
      let piv := pivotChoice n A fi
      if |A piv fi| < 1e-12 then none
      else
        let A₁ := swapRowsM n A fi piv
        let b₁ := b ∘ Equiv.swap fi piv
        let st₀ := normalizeStep n A₁ b₁ fi
        let st := (List.finRange n).foldl (elimRow n fi) st₀
        geLoop n fuel (i + 1) st.1 st.2
    else some b

/-- `solve_linear` (scf/diis.rs): Gauss-Jordan elimination with partial
pivoting; `None` when every remaining pivot candidate is below `1e-12`. -/
def solve_linear (n : ℕ) (A : Matrix (Fin n) (Fin n) ℝ) (b : Fin n → ℝ) :
    Option (Fin n → ℝ) :=
  geLoop n n 0 A b

/-- The DIIS history (`struct Diis`). -/
structure Diis where
  max_vecs : ℕ
  focks : List Mat
  errors : List (List ℝ)

/-- `Diis::new`. -/
def Diis.new (max_vecs : ℕ) : Diis := ⟨max_vecs, [], []⟩

/-- `Diis::push`: append the pair (error flattened), evict the oldest pair
when the history exceeds `max_vecs`. -/
def Diis.push (d : Diis) (fock : Mat) (error : List (List ℝ)) : Diis :=
  let focks := d.focks ++ [fock]
  let errors := d.errors ++ [flattenLL error]
  if focks.length > d.max_vecs then ⟨d.max_vecs, focks.drop 1, errors.drop 1⟩
  else ⟨d.max_vecs, focks, errors⟩

/-- The `(m+1) × (m+1)` DIIS B-matrix
`[[⟨e_i,e_j⟩, −1], [−1ᵀ, 0]]` built by `Diis::extrapolate`. -/
def diisB (d : Diis) : Matrix (Fin (d.errors.length + 1)) (Fin (d.errors.length + 1)) ℝ :=
  Matrix.of fun i j =>
    if hi : (i : ℕ) < d.errors.length then
      if hj : (j : ℕ) < d.errors.length then
        dotL (d.errors.get ⟨i, hi⟩) (d.errors.get ⟨j, hj⟩)
      else -1
    else if (j : ℕ) < d.errors.length then -1
    else 0

/-- The DIIS right-hand side `[0, …, 0, −1]`. -/
def diisRhs (m : ℕ) : Fin (m + 1) → ℝ := fun i => if (i : ℕ) = m then -1 else 0

/-- `Diis::extrapolate`: `None` with fewer than 2 stored pairs; otherwise
solve the B-system (propagating its `None` on a singular system) and return
the coefficient-weighted combination of the stored Fock matrices. -/
def Diis.extrapolate (d : Diis) : Option Mat :=
  let m := d.errors.length
  if m < 2 then none
  else
    (solve_linear (m + 1) (diisB d) (diisRhs m)).map fun coeffs =>
      fun p q => ∑ i : Fin m, coeffs i.castSucc * (d.focks.getD i zeroMat) p q

/-- The caller's fallback in scf/uhf.rs:
`diis.extrapolate().unwrap_or(fock)`. -/
def diisFockChoice (d : Diis) (fock : Mat) : Mat :=
  d.extrapolate.getD fock

/-! ## Concrete inputs used by the theorems below -/

/-- The origin. -/
def o3 : V3 := ⟨0, 0, 0⟩

/-- A single s primitive with exponent 2 and contraction coefficient 1 at
the origin. -/
def sPrim : Primitive := ⟨2, 1, o3, Ang3.s⟩

/-- A shell holding the single primitive `sPrim`. -/
def s1Shell : Shell := ⟨[sPrim], Ang3.s, o3, 0⟩

/-- The (ssss) integral of `sPrim` with itself on all four slots. -/
def sssVal : ℝ := eri_ssss sPrim sPrim sPrim sPrim

/-- A p-type primitive (angular momentum (1,0,0)) with exponent 1 and
coefficient 1 at the origin. -/
def pPrim : Primitive := ⟨1, 1, o3, ⟨1, 0, 0⟩⟩

/-- A hydrogen nucleus at the origin. -/
def hAtom : Atom := ⟨1, o3⟩

/-- The three STO-3G hydrogen s primitives of the end-to-end scenario. -/
def hPrim1 : Primitive := ⟨3.42525091, 0.15432897, o3, Ang3.s⟩

/-- Second STO-3G hydrogen primitive. -/
def hPrim2 : Primitive := ⟨0.62391373, 0.53532814, o3, Ang3.s⟩

/-- Third STO-3G hydrogen primitive. -/
def hPrim3 : Primitive := ⟨0.16885540, 0.44463454, o3, Ang3.s⟩

/-- The one-s-shell STO-3G hydrogen basis shell at the origin. -/
def hShell : Shell := ⟨[hPrim1, hPrim2, hPrim3], Ang3.s, o3, 0⟩

/-- The exact eigendecomposition oracle for 1×1 matrices: eigenvalue
`M[0][0]`, eigenvector matrix `[[1]]` (extended constantly; only the (0,0)
entry is ever read in dimension 1). -/
def eig1 : EigOracle := fun M => (fun _ => M 0 0, fun _ _ => 1)

/-- The 1×1 identity overlap matrix (extended constantly by 1). -/
def oneMat : Mat := fun _ _ => 1

/-! ## Theorems. First: evaluation lemmas for the Boys series loop. -/

/-- One unfolding of the `boys_small_t` loop body. -/
theorem boysSmallTGo_succ (n : ℕ) (t : ℝ) (fuel : ℕ) (sum term : ℝ) (k : ℕ) :
    boysSmallTGo n t (fuel + 1) sum term k =
      if |term * (-t / ((k + 1 : ℕ) : ℝ))| < 1e-16 then
        sum + term / ((2 * n + 2 * k + 1 : ℕ) : ℝ)
      else
        boysSmallTGo n t fuel (sum + term / ((2 * n + 2 * k + 1 : ℕ) : ℝ))
          (term * (-t / ((k + 1 : ℕ) : ℝ))) (k + 1) := rfl

/-- For `1e-16 ≤ t < √2·1e-8` the order-0 series breaks after its second
term: `boys_small_t(0,t) = 1 − t/3`. -/
theorem boys_small_t_zero_eval {t : ℝ} (h1 : ¬ t < 1e-16) (h2 : t * t / 2 < 1e-16)
    (h0 : 0 ≤ t) : boys_small_t 0 t = 1 - t / 3 := by
  rw [boys_small_t, show (1000 : ℕ) = 999 + 1 from rfl, boysSmallTGo_succ]
  rw [if_neg (by
    simp only [Nat.cast_one, Nat.zero_add, abs_div, abs_neg, abs_one, one_mul]
    rw [abs_of_nonneg h0]
    simpa using h1)]
  rw [show (999 : ℕ) = 998 + 1 from rfl, boysSmallTGo_succ]
  rw [if_pos (by
    have e1 : (1 : ℝ) * (-t / ((0 + 1 : ℕ) : ℝ)) * (-t / ((1 + 1 : ℕ) : ℝ)) = t * t / 2 := by
      push_cast
      ring
    rw [e1, abs_of_nonneg (by positivity)]
    exact h2)]
  push_cast
  ring

/-- Claim C10 counterexample: at `T = 9·10⁻⁹` (inside the small-T branch of
both functions) `boys0` returns exactly 1 while `boys(0,·)` returns
`1 − T/3`, so the two order-zero Boys implementations differ by `3·10⁻⁹`,
which exceeds the claimed `10⁻¹⁰` agreement. -/
theorem C10_boys0_mismatch_counterexample :
    ¬ |boys0 9e-9 - boys 0 9e-9| ≤ 1e-10 := by
  have hb0 : boys0 9e-9 = 1 := by rw [boys0, if_pos (by norm_num)]
  have hb : boys 0 9e-9 = 1 - 9e-9 / 3 := by
    rw [boys, if_pos (by rw [tSmall]; norm_num)]
    exact boys_small_t_zero_eval (by norm_num) (by norm_num) (by norm_num)
  rw [hb0, hb]
  rw [abs_of_nonneg (by norm_num)]
  norm_num

/-- Claim C10 (amended): on the shared small-T branch `0 ≤ T < 10⁻⁸`, the
helper `boys0` (which returns 1 there) and the two-regime kernel `boys(0,T)`
(which returns the truncated series `1` or `1 − T/3`) agree within
`3.4·10⁻⁹`; the difference reaches `T/3`, so the claimed `10⁻¹⁰` bound fails
(see the counterexample) but this weaker bound holds. -/
theorem C10_boys0_agreement_small_t {t : ℝ} (h0 : 0 ≤ t) (h : t < 1e-8) :
    |boys0 t - boys 0 t| ≤ 3.4e-9 := by
  have hb0 : boys0 t = 1 := by rw [boys0, if_pos h]
  have hsm : boys 0 t = boys_small_t 0 t := by
    rw [boys, if_pos (by rw [tSmall]; exact h)]
  by_cases htiny : t < 1e-16
  · have hb : boys_small_t 0 t = 0 + 1 / ((2 * 0 + 2 * 0 + 1 : ℕ) : ℝ) := by
      rw [boys_small_t, show (1000 : ℕ) = 999 + 1 from rfl, boysSmallTGo_succ]
      rw [if_pos (by
        simp only [Nat.cast_one, abs_mul, abs_div, abs_neg, abs_one, one_mul]
        rw [abs_of_nonneg h0]
        push_cast
        simpa using htiny)]
    rw [hb0, hsm, hb]
    norm_num
  · have hb : boys_small_t 0 t = 1 - t / 3 :=
      boys_small_t_zero_eval htiny (by nlinarith) h0
    rw [hb0, hsm, hb]
    rw [abs_of_nonneg (by nlinarith)]
    nlinarith

/-- Witness for C10's amended theorem at `T = 5·10⁻⁹`. -/
theorem C10_boys0_agreement_small_t_witness :
    |boys0 5e-9 - boys 0 5e-9| ≤ 3.4e-9 :=
  C10_boys0_agreement_small_t (by norm_num) (by norm_num)

/-! ## C6: unsupported angular momentum in the one-electron integrals -/

/-- The normalization constant of the concrete p primitive `pPrim`. -/
theorem pPrim_norm : pPrim.norm = (2 / Real.pi) ^ (0.75 : ℝ) * 2 := by
  rw [Primitive.norm]
  have h1 : pPrim.ang.total = 1 := rfl
  rw [h1]
  have h2 : ((4 : ℝ) * pPrim.exponent) ^ (1 : ℕ) = 2 ^ 2 := by
    rw [show pPrim.exponent = 1 from rfl]
    norm_num
  rw [h2, Real.sqrt_sq (by norm_num), show pPrim.exponent = 1 from rfl]
  norm_num

/-- Claim C6: for the p-type primitive pair `(pPrim, pPrim)` (angular
momentum beyond the s-only one-electron scheme) the overlap path panics as
the claim demands, but `nuclear_attraction_primitive` performs no angular
check at all: it silently returns the nonzero s-formula value
`−4π·(2/π)^{3/2}` instead of failing fast. -/
theorem C6_nuclear_attraction_no_angular_check :
    overlap_primitive pPrim pPrim = none ∧
    nuclear_attraction_primitive pPrim pPrim hAtom =
      -(4 * Real.pi * (2 / Real.pi) ^ (1.5 : ℝ)) ∧
    nuclear_attraction_primitive pPrim pPrim hAtom < 0 := by
  have hover : overlap_primitive pPrim pPrim = none := by
    rw [overlap_primitive, if_neg]
    intro h
    exact absurd (congrArg Ang3.lx h.1) (by simp [pPrim, Ang3.s])
  have hval : nuclear_attraction_primitive pPrim pPrim hAtom =
      -(4 * Real.pi * (2 / Real.pi) ^ (1.5 : ℝ)) := by
    rw [nuclear_attraction_primitive, pPrim_norm]
    have hd : dist2 ⟨(pPrim.exponent * pPrim.center.x + pPrim.exponent * pPrim.center.x) /
        (pPrim.exponent + pPrim.exponent),
        (pPrim.exponent * pPrim.center.y + pPrim.exponent * pPrim.center.y) /
        (pPrim.exponent + pPrim.exponent),
        (pPrim.exponent * pPrim.center.z + pPrim.exponent * pPrim.center.z) /
        (pPrim.exponent + pPrim.exponent)⟩ hAtom.position = 0 := by
      simp [dist2, pPrim, hAtom, o3]
    rw [hd]
    have hdd : dist2 pPrim.center pPrim.center = 0 := by simp [dist2]
    rw [hdd]
    have hb : boys0 (((pPrim.exponent + pPrim.exponent)) * 0) = 1 := by
      rw [mul_zero, boys0, if_pos (by norm_num)]
    rw [hb]
    have he : Real.exp (-pPrim.exponent * pPrim.exponent /
        (pPrim.exponent + pPrim.exponent) * 0) = 1 := by
      rw [mul_zero, Real.exp_zero]
    rw [he]
    have hrp : (2 / Real.pi) ^ (0.75 : ℝ) * (2 / Real.pi) ^ (0.75 : ℝ) =
        (2 / Real.pi) ^ (1.5 : ℝ) := by
      rw [← Real.rpow_add (by positivity)]
      norm_num
    have hz : ((hAtom.atomic_number : ℝ)) = 1 := by
      rw [show hAtom.atomic_number = 1 from rfl]
      norm_num
    rw [hz, show pPrim.exponent = 1 from rfl, ← hrp]
    ring
  refine ⟨hover, hval, ?_⟩
  rw [hval]
  have : (0 : ℝ) < 4 * Real.pi * (2 / Real.pi) ^ (1.5 : ℝ) := by positivity
  linarith

/-! ## C9: the shell self-overlap of the STO-3G hydrogen shell -/

/-- A primitive normalization constant is nonnegative. -/
theorem prim_norm_nonneg {p : Primitive} (hp : 0 ≤ p.exponent) : 0 ≤ p.norm := by
  rw [Primitive.norm]
  have h1 : (0 : ℝ) ≤ 2 * p.exponent / Real.pi :=
    div_nonneg (by linarith) Real.pi_pos.le
  exact mul_nonneg (Real.rpow_nonneg h1 _) (Real.sqrt_nonneg _)

/-- The primitive (s|s) self-overlap is exactly 1: the normalization
constant is built to make it so. -/
theorem overlap_ss_self_one {p : Primitive} (hang : p.ang = Ang3.s)
    (hexp : 0 < p.exponent) : overlap_ss p p = 1 := by
  rw [overlap_ss]
  have hd : dist2 p.center p.center = 0 := by simp [dist2]
  rw [hd, mul_zero, Real.exp_zero]
  have htot : p.ang.total = 0 := by rw [hang]; rfl
  have hnorm : p.norm = (2 * p.exponent / Real.pi) ^ (0.75 : ℝ) := by
    rw [Primitive.norm, htot, pow_zero, Real.sqrt_one, mul_one]
  rw [hnorm]
  have hbase : (0 : ℝ) < 2 * p.exponent / Real.pi := by
    apply div_pos (by linarith) Real.pi_pos
  have hmerge : (2 * p.exponent / Real.pi) ^ (0.75 : ℝ) *
      (2 * p.exponent / Real.pi) ^ (0.75 : ℝ) =
      (2 * p.exponent / Real.pi) ^ (1.5 : ℝ) := by
    rw [← Real.rpow_add hbase]
    norm_num
  have hzeta : (0 : ℝ) < p.exponent + p.exponent := by linarith
  calc (Real.pi / (p.exponent + p.exponent)) ^ (1.5 : ℝ) * 1 *
        ((2 * p.exponent / Real.pi) ^ (0.75 : ℝ)) *
        ((2 * p.exponent / Real.pi) ^ (0.75 : ℝ))
      = (Real.pi / (p.exponent + p.exponent)) ^ (1.5 : ℝ) *
        (2 * p.exponent / Real.pi) ^ (1.5 : ℝ) := by
        rw [mul_one, mul_assoc, hmerge]
    _ = ((Real.pi / (p.exponent + p.exponent)) * (2 * p.exponent / Real.pi)) ^ (1.5 : ℝ) := by
        rw [← Real.mul_rpow (div_nonneg Real.pi_pos.le hzeta.le) hbase.le]
    _ = (1 : ℝ) ^ (1.5 : ℝ) := by
        congr 1
        field_simp
        ring
    _ = 1 := Real.one_rpow _

/-- Primitive (s|s) overlaps of positive-exponent primitives are
nonnegative. -/
theorem overlap_ss_nonneg {p q : Primitive} (hp : 0 < p.exponent)
    (hq : 0 < q.exponent) : 0 ≤ overlap_ss p q := by
  rw [overlap_ss]
  have hz : (0 : ℝ) < p.exponent + q.exponent := by linarith
  refine mul_nonneg (mul_nonneg (mul_nonneg ?_ ?_) ?_) ?_
  · exact Real.rpow_nonneg (div_nonneg Real.pi_pos.le hz.le) _
  · exact (Real.exp_pos _).le
  · exact prim_norm_nonneg hp.le
  · exact prim_norm_nonneg hq.le

/-- Evaluation of the contracted self-overlap of the STO-3G hydrogen shell:
the nine primitive-pair (s|s) integrals, accumulated in row-major order. -/
theorem overlap_contracted_hShell :
    overlap_contracted ⟨hShell.primitives⟩ ⟨hShell.primitives⟩ =
      some (0 + overlap_ss hPrim1 hPrim1 + overlap_ss hPrim1 hPrim2 +
        overlap_ss hPrim1 hPrim3 + overlap_ss hPrim2 hPrim1 +
        overlap_ss hPrim2 hPrim2 + overlap_ss hPrim2 hPrim3 +
        overlap_ss hPrim3 hPrim1 + overlap_ss hPrim3 hPrim2 +
        overlap_ss hPrim3 hPrim3) := rfl

/-- Claim C9: the code's `overlap(shell, shell)` on the STO-3G hydrogen
shell is a 1×1 block whose entry is at least 3 (each of the three diagonal
primitive self-overlaps contributes exactly 1 and the six cross terms are
positive), because `overlap_ss` never multiplies in the contraction
coefficients; the entry is therefore not within `10⁻⁸` of 1.0. -/
theorem C9_h_overlap_not_normalized :
    ∃ M, overlap_shell_shell hShell hShell = some M ∧ 3 ≤ M 0 0 ∧
      ¬ |M 0 0 - 1| ≤ 1e-8 := by
  have hcomp : hShell.cartesian_components.length = 1 := rfl
  have heval : overlap_shell_shell hShell hShell =
      some (fun i j => if i < 1 ∧ j < 1 then
        (0 + overlap_ss hPrim1 hPrim1 + overlap_ss hPrim1 hPrim2 +
          overlap_ss hPrim1 hPrim3 + overlap_ss hPrim2 hPrim1 +
          overlap_ss hPrim2 hPrim2 + overlap_ss hPrim2 hPrim3 +
          overlap_ss hPrim3 hPrim1 + overlap_ss hPrim3 hPrim2 +
          overlap_ss hPrim3 hPrim3) else 0) := by
    rw [overlap_shell_shell, overlap_contracted_hShell]
    rfl
  refine ⟨_, heval, ?_, ?_⟩ <;>
  · have h11 : overlap_ss hPrim1 hPrim1 = 1 :=
      overlap_ss_self_one rfl (by rw [show hPrim1.exponent = 3.42525091 from rfl]; norm_num)
    have h22 : overlap_ss hPrim2 hPrim2 = 1 :=
      overlap_ss_self_one rfl (by rw [show hPrim2.exponent = 0.62391373 from rfl]; norm_num)
    have h33 : overlap_ss hPrim3 hPrim3 = 1 :=
      overlap_ss_self_one rfl (by rw [show hPrim3.exponent = 0.16885540 from rfl]; norm_num)
    have e1 : (0:ℝ) < hPrim1.exponent := by
      rw [show hPrim1.exponent = 3.42525091 from rfl]; norm_num
    have e2 : (0:ℝ) < hPrim2.exponent := by
      rw [show hPrim2.exponent = 0.62391373 from rfl]; norm_num
    have e3 : (0:ℝ) < hPrim3.exponent := by
      rw [show hPrim3.exponent = 0.16885540 from rfl]; norm_num
    have h12 := overlap_ss_nonneg e1 e2
    have h13 := overlap_ss_nonneg e1 e3
    have h21 := overlap_ss_nonneg e2 e1
    have h23 := overlap_ss_nonneg e2 e3
    have h31 := overlap_ss_nonneg e3 e1
    have h32 := overlap_ss_nonneg e3 e2
    simp only [show ((0:ℕ) < 1 ∧ (0:ℕ) < 1) = True by simp, if_true, h11, h22, h33]
    first
      | linarith
      | (rw [abs_of_nonneg (by linarith)]; intro hc; linarith)

/-! ## C7: the Roothaan solve on a non-positive-definite overlap matrix -/

/-- Claim C7: the overlap matrix `[[0]]` has the non-positive eigenvalue 0
(as reported by the exact 1×1 eigendecomposition oracle), yet
`solve_roothaan` — whose return type has no error case at all — proceeds and
produces a definite coefficient matrix and orbital-energy list (`1/√0`
evaluates to 0 in the real-number idealisation; in f64 it is `inf`, which
likewise propagates into coefficients instead of an error). No fatal
configuration error distinct from non-convergence exists in the code. -/
theorem C7_roothaan_accepts_nonpositive_overlap :
    (eig1 zeroMat).1 0 ≤ 0 ∧
    (solve_roothaan eig1 1 oneMat zeroMat).1 0 0 = 0 ∧
    (solve_roothaan eig1 1 oneMat zeroMat).2 0 = 0 := by
  refine ⟨le_of_eq rfl, ?_, ?_⟩ <;>
    simp [solve_roothaan, matMul, matT, eig1, zeroMat, oneMat,
      Finset.sum_range_one, Real.sqrt_zero, div_zero]

/-! ## C5: the two Boys-function regimes at the switch point -/

/-- The exponential at the erf argument: `exp(-1e-8) ≤ 1/(1+1e-8)`. -/
theorem exp_neg_1e8_le : Real.exp (-1e-8) ≤ 1 / (1 + 1e-8) := by
  have h := Real.add_one_le_exp (1e-8 : ℝ)
  have h2 : (0 : ℝ) < 1 + 1e-8 := by norm_num
  rw [Real.exp_neg, ← one_div]
  apply one_div_le_one_div_of_le h2
  linarith

/-- A rational lower bound on `√π`. -/
theorem sqrt_pi_gt : (1.772453 : ℝ) < Real.sqrt Real.pi := by
  rw [Real.lt_sqrt (by norm_num)]
  nlinarith [Real.pi_gt_d6]

/-- Evaluation of `boys_general` at order 0 and the switch point `T = 1e-8`:
`0.5·(√π·10⁴)` times the A&S-approximated `erf(10⁻⁴)`. -/
theorem boys_general_at_switch :
    boys_general 0 1e-8 =
      0.5 * (Real.sqrt Real.pi * 1e4) *
        (1 * (1 - (((((1.061405429 * (1 / (1 + 0.3275911 * 1e-4)) + -1.453152027) *
          (1 / (1 + 0.3275911 * 1e-4)) + 1.421413741) * (1 / (1 + 0.3275911 * 1e-4)) +
          -0.284496736) * (1 / (1 + 0.3275911 * 1e-4)) + 0.254829592) *
          (1 / (1 + 0.3275911 * 1e-4)) * Real.exp (-1e-8)))) := by
  have hsq : Real.sqrt (1e-8 : ℝ) = 1e-4 := by
    rw [show (1e-8 : ℝ) = (1e-4) ^ 2 by norm_num, Real.sqrt_sq (by norm_num)]
  have hpidiv : (Real.pi / 1e-8 : ℝ) = Real.pi * 1e8 := by
    rw [div_eq_mul_inv]
    norm_num
  have hsq8 : Real.sqrt (1e8 : ℝ) = 1e4 := by
    rw [show (1e8 : ℝ) = (1e4) ^ 2 by norm_num, Real.sqrt_sq (by norm_num)]
  simp only [boys_general, if_pos rfl, hsq, hpidiv, Real.sqrt_mul Real.pi_pos.le, hsq8]
  simp only [erfAS]
  rw [if_neg (by norm_num : ¬ (1e-4 : ℝ) < 0), abs_of_nonneg (by norm_num : (0:ℝ) ≤ 1e-4)]
  rw [show (-(1e-4 : ℝ) * 1e-4) = -1e-8 by norm_num]
  rw [if_pos trivial]

/-- Claim C5: at the regime switch point `T = 1e-8` and order `n = 0` the
two Boys evaluations disagree by more than `10⁻¹⁰` (in fact by about
`1.5·10⁻⁵`): the absolute error of the Abramowitz–Stegun rational erf
approximation near 0 is amplified by the factor `0.5·√(π/T) ≈ 8862`. -/
theorem C5_boys_regimes_disagree_at_switch :
    ¬ |boys_small_t 0 1e-8 - boys_general 0 1e-8| ≤ 1e-10 := by
  have hsmall : boys_small_t 0 1e-8 = 1 - 1e-8 / 3 :=
    boys_small_t_zero_eval (by norm_num) (by norm_num) (by norm_num)
  have hq : (0 : ℝ) < (((((1.061405429 * (1 / (1 + 0.3275911 * 1e-4)) + -1.453152027) *
      (1 / (1 + 0.3275911 * 1e-4)) + 1.421413741) * (1 / (1 + 0.3275911 * 1e-4)) +
      -0.284496736) * (1 / (1 + 0.3275911 * 1e-4)) + 0.254829592) *
      (1 / (1 + 0.3275911 * 1e-4))) := by norm_num
  set q : ℝ := (((((1.061405429 * (1 / (1 + 0.3275911 * 1e-4)) + -1.453152027) *
      (1 / (1 + 0.3275911 * 1e-4)) + 1.421413741) * (1 / (1 + 0.3275911 * 1e-4)) +
      -0.284496736) * (1 / (1 + 0.3275911 * 1e-4)) + 0.254829592) *
      (1 / (1 + 0.3275911 * 1e-4))) with hqdef
  have hE := exp_neg_1e8_le
  have hqE : q * Real.exp (-1e-8) ≤ q * (1 / (1 + 1e-8)) :=
    mul_le_mul_of_nonneg_left hE hq.le
  have t1 : 1 - q * (1 / (1 + 1e-8)) ≤ 1 - q * Real.exp (-1e-8) := by linarith
  have t2 : (0 : ℝ) < 1 - q * (1 / (1 + 1e-8)) := by rw [hqdef]; norm_num
  have hS := sqrt_pi_gt
  have hS0 : (0 : ℝ) ≤ Real.sqrt Real.pi := Real.sqrt_nonneg _
  have step1 : 0.5 * (Real.sqrt Real.pi * 1e4) * (1 - q * (1 / (1 + 1e-8))) ≤
      0.5 * (Real.sqrt Real.pi * 1e4) * (1 - q * Real.exp (-1e-8)) :=
    mul_le_mul_of_nonneg_left t1 (by positivity)
  have step2 : 0.5 * (1.772453 * 1e4) * (1 - q * (1 / (1 + 1e-8))) ≤
      0.5 * (Real.sqrt Real.pi * 1e4) * (1 - q * (1 / (1 + 1e-8))) := by
    apply mul_le_mul_of_nonneg_right _ t2.le
    nlinarith [hS]
  have final : (1 - 1e-8 / 3) + 1e-10 <
      0.5 * (1.772453 * 1e4) * (1 - q * (1 / (1 + 1e-8))) := by
    rw [hqdef]
    norm_num
  have hgen : boys_general 0 1e-8 =
      0.5 * (Real.sqrt Real.pi * 1e4) * (1 * (1 - q * Real.exp (-1e-8))) := by
    rw [boys_general_at_switch, hqdef]
  intro hcon
  rw [hsmall, hgen, one_mul] at hcon
  have hub := (abs_le.mp hcon).1
  linarith

/-! ## C1: the Schwarz screening bound -/

/-- Evaluation of the (ssss) integral of the concrete shell `s1Shell`
(exponent 2, coefficient 1, at the origin): `2π^2.5/(16√8)`. -/
theorem sssVal_eval : sssVal = 2 * Real.pi ^ (2.5 : ℝ) / (16 * Real.sqrt 8) := by
  rw [sssVal, eri_ssss]
  simp only [sPrim, o3]
  norm_num [dist2, boys0, Real.exp_zero]

/-- `sssVal` is positive. -/
theorem sssVal_pos : 0 < sssVal := by
  rw [sssVal_eval]
  positivity

/-- `sssVal` exceeds 0.4 (so its square clears the `1e-12` cutoff). -/
theorem sssVal_gt_04 : (0.4 : ℝ) < sssVal := by
  rw [sssVal_eval]
  have h1 : Real.pi ^ (2 : ℝ) ≤ Real.pi ^ (2.5 : ℝ) :=
    Real.rpow_le_rpow_of_exponent_le (by linarith [Real.pi_gt_three]) (by norm_num)
  have h2 : Real.pi ^ (2 : ℝ) = Real.pi ^ (2 : ℕ) := Real.rpow_two Real.pi
  have h3 : Real.sqrt 8 < 3 := by
    rw [Real.sqrt_lt' (by norm_num)]
    norm_num
  have h4 : (0 : ℝ) < Real.sqrt 8 := by positivity
  have h5 : (9.8596 : ℝ) < Real.pi ^ (2 : ℕ) := by nlinarith [Real.pi_gt_d2]
  have h6 : (9.8596 : ℝ) ≤ Real.pi ^ (2.5 : ℝ) := by
    calc (9.8596 : ℝ) ≤ Real.pi ^ (2 : ℕ) := h5.le
      _ = Real.pi ^ (2 : ℝ) := h2.symm
      _ ≤ Real.pi ^ (2.5 : ℝ) := h1
  rw [lt_div_iff₀ (by positivity)]
  have key : ∀ x s : ℝ, 9.8596 ≤ x → s < 3 → 0 < s → 0.4 * (16 * s) < 2 * x := by
    intro x s hx hs hs0
    nlinarith
  exact key _ _ h6 h3 h4

/-- `sssVal` is below 1: `2π^2.5 = 2√(π⁵) < 16√8 = √2048` since
`π⁵ < 512`. -/
theorem sssVal_lt_one : sssVal < 1 := by
  rw [sssVal_eval]
  rw [div_lt_one (by positivity)]
  have h25 : Real.pi ^ (2.5 : ℝ) = Real.sqrt (Real.pi ^ (5 : ℕ)) := by
    rw [show (2.5 : ℝ) = ((5 : ℕ) : ℝ) * (1 / 2) by norm_num,
      Real.rpow_mul Real.pi_pos.le, Real.rpow_natCast, ← Real.sqrt_eq_rpow]
  have hpi5 : Real.pi ^ (5 : ℕ) < 512 := by
    have := Real.pi_lt_d2
    have h : Real.pi ^ (5 : ℕ) < 3.15 ^ (5 : ℕ) :=
      pow_lt_pow_left₀ this Real.pi_pos.le (by norm_num)
    nlinarith [h]
  have hs : Real.sqrt (Real.pi ^ (5 : ℕ)) < Real.sqrt 512 :=
    Real.sqrt_lt_sqrt (by positivity) hpi5
  have h512 : Real.sqrt 512 = 8 * Real.sqrt 8 := by
    rw [show (512 : ℝ) = 64 * 8 by norm_num, Real.sqrt_mul (by norm_num),
      show Real.sqrt 64 = 8 by
        rw [show (64 : ℝ) = 8 ^ 2 by norm_num, Real.sqrt_sq (by norm_num)]]
  rw [h25]
  nlinarith [hs, h512]

/-- The Schwarz bound of `s1Shell` with itself evaluates to `sssVal`
itself: the 1×1 diagonal blocks hold `sssVal`, so the bound is
`√(sssVal·sssVal)`. -/
theorem schwarz_s1_eval : schwarz_shell_pair s1Shell s1Shell = some sssVal := by
  have h : schwarz_shell_pair s1Shell s1Shell =
      some (Real.sqrt (max 0 |0 + sssVal| * max 0 |0 + sssVal|)) := rfl
  rw [h, zero_add, abs_of_pos sssVal_pos, max_eq_right sssVal_pos.le,
    Real.sqrt_mul_self sssVal_pos.le]

/-- Evaluation of the 4-shell ERI block of `s1Shell` with itself: the
screening product `sssVal²` is above the `1e-12` cutoff, so the single slot
holds the (ssss) integral. -/
theorem eri4_s1_eval : eri_shell_shell_shell_shell s1Shell s1Shell s1Shell s1Shell =
    some (fun m => if m < 1 then 0 + sssVal else 0) := by
  simp only [eri_shell_shell_shell_shell, schwarz_s1_eval, Option.some_bind]
  rw [if_neg (by nlinarith [sssVal_gt_04])]
  rfl

/-- Claim C1: the Schwarz screening quantity computed by
`schwarz_shell_pair` is NOT a valid upper bound for the screened quartet:
for the single diffuse-normalised s shell `s1Shell` (one primitive, exponent
2, coefficient 1), the screening product `bound(A,A)·bound(A,A) = sssVal²`
is strictly smaller than the actual integral `|(μν|λσ)| = sssVal` of the
quartet it guards, refuting
`bound(A,B)·bound(C,D) ≥ |(μν|λσ)|`. -/
theorem C1_schwarz_bound_underestimates :
    ∃ bnd blk, schwarz_shell_pair s1Shell s1Shell = some bnd ∧
      eri_shell_shell_shell_shell s1Shell s1Shell s1Shell s1Shell = some blk ∧
      bnd * bnd < |blk 0| := by
  refine ⟨sssVal, _, schwarz_s1_eval, eri4_s1_eval, ?_⟩
  rw [if_pos (by norm_num : (0 : ℕ) < 1), zero_add, abs_of_pos sssVal_pos]
  nlinarith [sssVal_pos, sssVal_lt_one]

/-! ## The SCF iteration characterized (helpers for C2, C3, C4) -/

/-- The HF path of one SCF iteration: with `xc_method = none` the Fock
matrix is `H + 2J − K` and the energy is `½·Σ P_new·(H + F)`, with no
exchange-correlation correction. -/
theorem scf_iterate_hf (eig : EigOracle) (ns : ℕ) (sh : ℕ → Shell)
    (nao nelec : ℕ) (h S p J K F : Mat)
    (hjk : build_jk ns sh p = some (J, K))
    (hF : F = fun i j => h i j + (2 * J i j - K i j)) :
    scf_iterate eig ns sh nao nelec h S none p =
      some (build_density (solve_roothaan eig nao F S).1 nelec,
        0.5 * ∑ i ∈ Finset.range nao, ∑ j ∈ Finset.range nao,
          build_density (solve_roothaan eig nao F S).1 nelec i j *
            (h i j + F i j)) := by
  subst hF
  simp only [scf_iterate, hjk, Option.map_some]
  rfl

/-- The DFT path of one SCF iteration: with an active functional the Fock
matrix additionally receives the Vxc matrix, and the energy receives the
correction `Exc − ∫ρ·vxc` exactly once. -/
theorem scf_iterate_dft (eig : EigOracle) (ns : ℕ) (sh : ℕ → Shell)
    (nao nelec : ℕ) (h S p J K : Mat) (vx : VxcOracle) (F : Mat)
    (hjk : build_jk ns sh p = some (J, K))
    (hF : F = fun i j => (h i j + (2 * J i j - K i j)) + (vx p).1 i j) :
    scf_iterate eig ns sh nao nelec h S (some vx) p =
      some (build_density (solve_roothaan eig nao F S).1 nelec,
        0.5 * ∑ i ∈ Finset.range nao, ∑ j ∈ Finset.range nao,
          build_density (solve_roothaan eig nao F S).1 nelec i j *
            (h i j + F i j) + ((vx p).2.1 - (vx p).2.2)) := by
  subst hF
  simp only [scf_iterate, hjk, Option.map_some]
  rfl

/-! ## C2: the concrete converged run with a huge density change -/

/-- `build_jk` on the single shell `s1Shell` with the zero density: one
quartet, whose contribution is weighted by the zero density, so J and K are
both the zero matrix. -/
theorem build_jk_s1_zero :
    build_jk 1 (fun _ => s1Shell) zeroMat = some (zeroMat, zeroMat) := by
  have hq : quartetList 1 = [(0, 0, 0, 0)] := rfl
  rw [build_jk, hq, List.foldl_cons, List.foldl_nil, Option.some_bind]
  rw [eri4_s1_eval]
  simp only [Option.map_some']
  have hJ : addAt zeroMat 0 0 (zeroMat 0 0 *
      (fun m => if m < 1 then 0 + sssVal else 0) (eriIdx 1 1 1 0 0 0 0)) = zeroMat := by
    funext i j
    simp [addAt, zeroMat]
  have hbody : jkAccum (shellOffset (fun _ => s1Shell) 0) (shellOffset (fun _ => s1Shell) 0)
      (shellOffset (fun _ => s1Shell) 0) (shellOffset (fun _ => s1Shell) 0)
      s1Shell.n_orbitals s1Shell.n_orbitals s1Shell.n_orbitals zeroMat
      (fun m => if m < 1 then 0 + sssVal else 0)
      (idxList4 s1Shell.n_orbitals s1Shell.n_orbitals s1Shell.n_orbitals
        s1Shell.n_orbitals) (zeroMat, zeroMat) =
      (addAt zeroMat 0 0 (zeroMat 0 0 *
          (fun m => if m < 1 then 0 + sssVal else 0) (eriIdx 1 1 1 0 0 0 0)),
        addAt zeroMat 0 0 (zeroMat 0 0 *
          (fun m => if m < 1 then 0 + sssVal else 0) (eriIdx 1 1 1 0 0 0 0))) := rfl
  rw [hbody, hJ]

/-- The Fock matrix of the C2 run collapses to the zero matrix. -/
theorem c2_fock_zero :
    zeroMat = fun i j => zeroMat i j + (2 * zeroMat i j - zeroMat i j) := by
  funext i j
  simp [zeroMat]

/-- Claim C2: the closed-shell driver `scf_cycle` returns an `ScfResult`
(i.e. reports convergence) on a run whose accepted iteration has a density
RMS change of 2 — far above the 1e-6 tolerance — because the convergence
test of scf_cycle.rs examines `ΔE` only. One AO, `H = 0`, `S = [[1]]`,
2 electrons, plain HF: the first iteration produces density `[[2]]` from the
zero initial guess with both energies 0, so `ΔE = 0` is accepted while
`ΔP = 2`. -/
theorem C2_converged_with_large_deltaP :
    ∃ r, scf_cycle eig1 1 (fun _ => s1Shell) 2 zeroMat oneMat
        ⟨1, 1e-6, none⟩ = some r ∧
      rms_density_diff 1 zeroMat r.density = 2 ∧
      ¬ rms_density_diff 1 zeroMat r.density < 1e-6 := by
  have hit := scf_iterate_hf eig1 1 (fun _ => s1Shell) 1 2 zeroMat oneMat zeroMat
    zeroMat zeroMat zeroMat build_jk_s1_zero c2_fock_zero
  have hc00 : (solve_roothaan eig1 1 zeroMat oneMat).1 0 0 = 1 := by
    simp [solve_roothaan, matMul, matT, eig1, oneMat, zeroMat,
      Finset.sum_range_one, Real.sqrt_one]
    decide
  have hpn : build_density (solve_roothaan eig1 1 zeroMat oneMat).1 2 0 0 = 2 := by
    rw [build_density]
    norm_num [Finset.sum_range_one, hc00]
  have hE : (0.5 * ∑ i ∈ Finset.range 1, ∑ j ∈ Finset.range 1,
      build_density (solve_roothaan eig1 1 zeroMat oneMat).1 2 i j *
        (zeroMat i j + zeroMat i j)) = 0 := by
    simp [Finset.sum_range_one, zeroMat]
  have hcycle : scf_cycle eig1 1 (fun _ => s1Shell) 2 zeroMat oneMat
      ⟨1, 1e-6, none⟩ =
      some ⟨0, build_density (solve_roothaan eig1 1 zeroMat oneMat).1 2⟩ := by
    have hnao : (∑ s ∈ Finset.range 1, ((fun _ : ℕ => s1Shell) s).n_orbitals) = 1 := by
      rw [Finset.sum_range_one]
      rfl
    simp only [scf_cycle, hnao]
    show scfLoop eig1 1 (fun _ => s1Shell) 1 2 zeroMat oneMat none 1e-6 (0 + 1)
      zeroMat 0 = _
    rw [scfLoop, hit, Option.some_bind]
    show (if |(0.5 * ∑ i ∈ Finset.range 1, ∑ j ∈ Finset.range 1,
        build_density (solve_roothaan eig1 1 zeroMat oneMat).1 2 i j *
          (zeroMat i j + zeroMat i j)) - 0| < 1e-6 then _ else _) = _
    rw [hE, if_pos (by norm_num)]
  refine ⟨_, hcycle, ?_, ?_⟩
  · show rms_density_diff 1 zeroMat (build_density (solve_roothaan eig1 1 zeroMat oneMat).1 2) = 2
    rw [rms_density_diff, Finset.sum_range_one, Finset.sum_range_one, hpn]
    norm_num [zeroMat]
    rw [show (4 : ℝ) = 2 ^ 2 by norm_num, Real.sqrt_sq (by norm_num)]
  · show ¬ rms_density_diff 1 zeroMat (build_density (solve_roothaan eig1 1 zeroMat oneMat).1 2) < 1e-6
    rw [rms_density_diff, Finset.sum_range_one, Finset.sum_range_one, hpn]
    norm_num [zeroMat]
    rw [show (4 : ℝ) = 2 ^ 2 by norm_num, Real.sqrt_sq (by norm_num)]
    norm_num

/-! ## C3: characterizing the `build_jk` accumulation

The loops of jk.rs are folds of point updates; the lemmas below convert
those folds into closed-form sums over shell and orbital indices. -/

/-- A mapped `List.range` sums like the corresponding `Finset.range`. -/
theorem list_range_map_sum (n : ℕ) (f : ℕ → ℝ) :
    ((List.range n).map f).sum = ∑ i ∈ Finset.range n, f i := by
  induction n with
  | zero => simp
  | succ m ih =>
    rw [List.range_succ, List.map_append, List.sum_append, Finset.sum_range_succ, ih]
    simp

/-- Summing a map over a flattened list nests the sums. -/
theorem list_flatMap_map_sum {ε γ : Type} (l : List γ) (g : γ → List ε) (f : ε → ℝ) :
    ((l.flatMap g).map f).sum = (l.map fun a => ((g a).map f).sum).sum := by
  induction l with
  | nil => simp
  | cons e t ih => simp [ih]

/-- The flattened four-index loop sums as four nested range sums. -/
theorem idxList4_map_sum (na nb nc nd : ℕ) (f : ℕ × ℕ × ℕ × ℕ → ℝ) :
    ((idxList4 na nb nc nd).map f).sum =
      ∑ ia ∈ Finset.range na, ∑ ib ∈ Finset.range nb, ∑ ic ∈ Finset.range nc,
        ∑ il ∈ Finset.range nd, f (ia, ib, ic, il) := by
  rw [idxList4, list_flatMap_map_sum, list_range_map_sum]
  refine Finset.sum_congr rfl fun ia _ => ?_
  rw [list_flatMap_map_sum, list_range_map_sum]
  refine Finset.sum_congr rfl fun ib _ => ?_
  rw [list_flatMap_map_sum, list_range_map_sum]
  refine Finset.sum_congr rfl fun ic _ => ?_
  rw [List.map_map, list_range_map_sum]
  rfl

/-- Membership bounds of the flattened four-index loop. -/
theorem mem_idxList4 {na nb nc nd : ℕ} {e : ℕ × ℕ × ℕ × ℕ}
    (he : e ∈ idxList4 na nb nc nd) :
    e.1 < na ∧ e.2.1 < nb ∧ e.2.2.1 < nc ∧ e.2.2.2 < nd := by
  simp only [idxList4, List.mem_flatMap, List.mem_map, List.mem_range] at he
  obtain ⟨ia, hia, ib, hib, ic, hic, il, hil, rfl⟩ := he
  exact ⟨hia, hib, hic, hil⟩

/-- One step of the quartet accumulation is a `rfl`-level unfolding. -/
theorem jkAccum_cons (oa ob oc od nb nc nd : ℕ) (P : Mat) (blk : Vec1)
    (e : ℕ × ℕ × ℕ × ℕ) (t : List (ℕ × ℕ × ℕ × ℕ)) (jk : Mat × Mat) :
    jkAccum oa ob oc od nb nc nd P blk (e :: t) jk =
      jkAccum oa ob oc od nb nc nd P blk t
        (addAt jk.1 (oa + e.1) (ob + e.2.1)
          (P (oc + e.2.2.1) (od + e.2.2.2) *
            blk (eriIdx nb nc nd e.1 e.2.1 e.2.2.1 e.2.2.2)),
         addAt jk.2 (oa + e.1) (oc + e.2.2.1)
          (P (ob + e.2.1) (od + e.2.2.2) *
            blk (eriIdx nb nc nd e.1 e.2.1 e.2.2.1 e.2.2.2))) := rfl

/-- The J component of the quartet accumulation, read at one entry. -/
theorem jkAccum_fst_entry (oa ob oc od nb nc nd : ℕ) (P : Mat) (blk : Vec1)
    (items : List (ℕ × ℕ × ℕ × ℕ)) (jk : Mat × Mat) (i j : ℕ) :
    (jkAccum oa ob oc od nb nc nd P blk items jk).1 i j =
      jk.1 i j + (items.map fun e => if oa + e.1 = i ∧ ob + e.2.1 = j then
        P (oc + e.2.2.1) (od + e.2.2.2) *
          blk (eriIdx nb nc nd e.1 e.2.1 e.2.2.1 e.2.2.2) else 0).sum := by
  induction items generalizing jk with
  | nil => simp [jkAccum]
  | cons e t ih =>
    rw [jkAccum_cons, ih, List.map_cons, List.sum_cons]
    dsimp only
    by_cases he : oa + e.1 = i ∧ ob + e.2.1 = j
    · rw [if_pos he]
      have hA : addAt jk.1 (oa + e.1) (ob + e.2.1)
          (P (oc + e.2.2.1) (od + e.2.2.2) *
            blk (eriIdx nb nc nd e.1 e.2.1 e.2.2.1 e.2.2.2)) i j =
          jk.1 i j + P (oc + e.2.2.1) (od + e.2.2.2) *
            blk (eriIdx nb nc nd e.1 e.2.1 e.2.2.1 e.2.2.2) := by
        simp [addAt, he.1, he.2]
      rw [hA]
      ring
    · rw [if_neg he]
      have hA : addAt jk.1 (oa + e.1) (ob + e.2.1)
          (P (oc + e.2.2.1) (od + e.2.2.2) *
            blk (eriIdx nb nc nd e.1 e.2.1 e.2.2.1 e.2.2.2)) i j = jk.1 i j := by
        rw [addAt, if_neg]
        intro hc
        exact he ⟨hc.1.symm, hc.2.symm⟩
      rw [hA]
      ring

/-- The K component of the quartet accumulation, read at one entry. -/
theorem jkAccum_snd_entry (oa ob oc od nb nc nd : ℕ) (P : Mat) (blk : Vec1)
    (items : List (ℕ × ℕ × ℕ × ℕ)) (jk : Mat × Mat) (i j : ℕ) :
    (jkAccum oa ob oc od nb nc nd P blk items jk).2 i j =
      jk.2 i j + (items.map fun e => if oa + e.1 = i ∧ oc + e.2.2.1 = j then
        P (ob + e.2.1) (od + e.2.2.2) *
          blk (eriIdx nb nc nd e.1 e.2.1 e.2.2.1 e.2.2.2) else 0).sum := by
  induction items generalizing jk with
  | nil => simp [jkAccum]
  | cons e t ih =>
    rw [jkAccum_cons, ih, List.map_cons, List.sum_cons]
    dsimp only
    by_cases he : oa + e.1 = i ∧ oc + e.2.2.1 = j
    · rw [if_pos he]
      have hA : addAt jk.2 (oa + e.1) (oc + e.2.2.1)
          (P (ob + e.2.1) (od + e.2.2.2) *
            blk (eriIdx nb nc nd e.1 e.2.1 e.2.2.1 e.2.2.2)) i j =
          jk.2 i j + P (ob + e.2.1) (od + e.2.2.2) *
            blk (eriIdx nb nc nd e.1 e.2.1 e.2.2.1 e.2.2.2) := by
        simp [addAt, he.1, he.2]
      rw [hA]
      ring
    · rw [if_neg he]
      have hA : addAt jk.2 (oa + e.1) (oc + e.2.2.1)
          (P (ob + e.2.1) (od + e.2.2.2) *
            blk (eriIdx nb nc nd e.1 e.2.1 e.2.2.1 e.2.2.2)) i j = jk.2 i j := by
        rw [addAt, if_neg]
        intro hc
        exact he ⟨hc.1.symm, hc.2.symm⟩
      rw [hA]
      ring

/-- An option-valued fold whose every step succeeds is the pure fold. -/
theorem foldl_bind_map_some {ε γ σ : Type} (l : List ε) (F : ε → Option γ)
    (G : ε → γ → σ → σ) (f : ε → γ) (hF : ∀ e ∈ l, F e = some (f e)) (s0 : σ) :
    l.foldl (fun st e => st.bind fun s => (F e).map fun g => G e g s) (some s0) =
      some (l.foldl (fun s e => G e (f e) s) s0) := by
  induction l generalizing s0 with
  | nil => rfl
  | cons e t ih =>
    rw [List.foldl_cons, List.foldl_cons, Option.some_bind,
      hF e (List.mem_cons_self e t), Option.map_some']
    exact ih (fun x hx => hF x (List.mem_cons_of_mem e hx)) _

/-- A fold over events read at one entry of a chosen component, when each
step adds a known amount there. -/
theorem foldl_acc_entry {ε : Type} (l : List ε) (step : Mat × Mat → ε → Mat × Mat)
    (pr : Mat × Mat → Mat) (sV : ε → ℝ) (i j : ℕ)
    (hstep : ∀ jk q, q ∈ l → pr (step jk q) i j = pr jk i j + sV q)
    (init : Mat × Mat) :
    pr (l.foldl step init) i j = pr init i j + (l.map sV).sum := by
  induction l generalizing init with
  | nil => simp
  | cons e t ih =>
    rw [List.foldl_cons, List.map_cons, List.sum_cons,
      ih (fun jk q hq => hstep jk q (List.mem_cons_of_mem e hq)),
      hstep init e (List.mem_cons_self e t)]
    ring

/-- Pulling an index-independent condition out of a sum. -/
theorem sum_if_push {ι : Type} (s : Finset ι) (A : Prop) [Decidable A] (g : ι → ℝ) :
    (∑ x ∈ s, if A then g x else 0) = if A then ∑ x ∈ s, g x else 0 := by
  by_cases hA : A <;> simp [hA]

/-- `shell_offsets` advances by the orbital count of each shell. -/
theorem shellOffset_succ (sh : ℕ → Shell) (a : ℕ) :
    shellOffset sh (a + 1) = shellOffset sh a + (sh a).n_orbitals :=
  Finset.sum_range_succ _ a

/-- `shell_offsets` is monotone. -/
theorem shellOffset_mono (sh : ℕ → Shell) {a a' : ℕ} (h : a ≤ a') :
    shellOffset sh a ≤ shellOffset sh a' :=
  Finset.sum_le_sum_of_subset (Finset.range_subset.mpr h)

/-- Unique decomposition of a global AO index into (shell, local orbital):
the offset bookkeeping of jk.rs never aliases two different positions. -/
theorem offset_decomp_unique (sh : ℕ → Shell) {a a' ia ia' : ℕ}
    (hia : ia < (sh a).n_orbitals) (hia' : ia' < (sh a').n_orbitals)
    (heq : shellOffset sh a + ia = shellOffset sh a' + ia') : a = a' ∧ ia = ia' := by
  rcases lt_trichotomy a a' with h | h | h
  · exfalso
    have h1 : shellOffset sh a + ia < shellOffset sh (a + 1) := by
      rw [shellOffset_succ]
      omega
    have h2 : shellOffset sh (a + 1) ≤ shellOffset sh a' := shellOffset_mono sh h
    omega
  · constructor
    · exact h
    · subst h
      omega
  · exfalso
    have h1 : shellOffset sh a' + ia' < shellOffset sh (a' + 1) := by
      rw [shellOffset_succ]
      omega
    have h2 : shellOffset sh (a' + 1) ≤ shellOffset sh a := shellOffset_mono sh h
    omega

/-- Pulling an index-independent condition out of two nested sums. -/
theorem sum2_if_push (s1 s2 : Finset ℕ) (A : Prop) [Decidable A] (g : ℕ → ℕ → ℝ) :
    (∑ x ∈ s1, ∑ y ∈ s2, if A then g x y else 0) =
      if A then ∑ x ∈ s1, ∑ y ∈ s2, g x y else 0 := by
  by_cases hA : A <;> simp [hA]

/-- Pulling an index-independent condition out of three nested sums. -/
theorem sum3_if_push (s1 s2 s3 : Finset ℕ) (A : Prop) [Decidable A]
    (g : ℕ → ℕ → ℕ → ℝ) :
    (∑ x ∈ s1, ∑ y ∈ s2, ∑ z ∈ s3, if A then g x y z else 0) =
      if A then ∑ x ∈ s1, ∑ y ∈ s2, ∑ z ∈ s3, g x y z else 0 := by
  by_cases hA : A <;> simp [hA]

/-- Collapse of the eight-fold quartet/orbital sum against a fixed J target
`(μ, ν) = (offset a + ia, offset b + ib)`: only the bra pair `(a, ia)`,
`(b, ib)` survives, leaving the sum over ket shells and orbitals. -/
theorem collapse_J (ns : ℕ) (sh : ℕ → Shell) {a b ia ib : ℕ}
    (ha : a < ns) (hb : b < ns) (hia : ia < (sh a).n_orbitals)
    (hib : ib < (sh b).n_orbitals)
    (v : ℕ → ℕ → ℕ → ℕ → ℕ → ℕ → ℕ → ℕ → ℝ) :
    (∑ a' ∈ Finset.range ns, ∑ b' ∈ Finset.range ns, ∑ c' ∈ Finset.range ns,
      ∑ d' ∈ Finset.range ns, ∑ ia' ∈ Finset.range (sh a').n_orbitals,
      ∑ ib' ∈ Finset.range (sh b').n_orbitals,
      ∑ ic' ∈ Finset.range (sh c').n_orbitals,
      ∑ il' ∈ Finset.range (sh d').n_orbitals,
        if shellOffset sh a' + ia' = shellOffset sh a + ia ∧
            shellOffset sh b' + ib' = shellOffset sh b + ib
        then v a' b' c' d' ia' ib' ic' il' else 0) =
    ∑ c' ∈ Finset.range ns, ∑ d' ∈ Finset.range ns,
      ∑ ic' ∈ Finset.range (sh c').n_orbitals,
      ∑ il' ∈ Finset.range (sh d').n_orbitals, v a b c' d' ia ib ic' il' := by
  rw [Finset.sum_eq_single_of_mem a (Finset.mem_range.mpr ha)]
  · have step_inner : ∀ b' c' d' : ℕ,
        (∑ ia' ∈ Finset.range (sh a).n_orbitals,
          ∑ ib' ∈ Finset.range (sh b').n_orbitals,
          ∑ ic' ∈ Finset.range (sh c').n_orbitals,
          ∑ il' ∈ Finset.range (sh d').n_orbitals,
            if shellOffset sh a + ia' = shellOffset sh a + ia ∧
                shellOffset sh b' + ib' = shellOffset sh b + ib
            then v a b' c' d' ia' ib' ic' il' else 0) =
        ∑ ib' ∈ Finset.range (sh b').n_orbitals,
          ∑ ic' ∈ Finset.range (sh c').n_orbitals,
          ∑ il' ∈ Finset.range (sh d').n_orbitals,
            if shellOffset sh b' + ib' = shellOffset sh b + ib
            then v a b' c' d' ia ib' ic' il' else 0 := by
      intro b' c' d'
      simp only [add_right_inj, ite_and]
      rw [Finset.sum_congr rfl fun ia' _ => sum3_if_push _ _ _ (ia' = ia) _]
      rw [Finset.sum_ite_eq' (Finset.range (sh a).n_orbitals) ia]
      rw [if_pos (Finset.mem_range.mpr hia)]
    rw [Finset.sum_congr rfl fun b' _ => Finset.sum_congr rfl fun c' _ =>
      Finset.sum_congr rfl fun d' _ => step_inner b' c' d']
    rw [Finset.sum_eq_single_of_mem b (Finset.mem_range.mpr hb)]
    · refine Finset.sum_congr rfl fun c' _ => Finset.sum_congr rfl fun d' _ => ?_
      simp only [add_right_inj]
      rw [Finset.sum_congr rfl fun ib' _ => sum2_if_push _ _ (ib' = ib) _]
      rw [Finset.sum_ite_eq' (Finset.range (sh b).n_orbitals) ib]
      rw [if_pos (Finset.mem_range.mpr hib)]
    · intro b' _ hne
      refine Finset.sum_eq_zero fun c' _ => Finset.sum_eq_zero fun d' _ =>
        Finset.sum_eq_zero fun ib' hib' => Finset.sum_eq_zero fun ic' _ =>
        Finset.sum_eq_zero fun il' _ => ?_
      rw [if_neg]
      intro h2
      exact hne (offset_decomp_unique sh (Finset.mem_range.mp hib') hib h2).1
  · intro a' _ hne
    refine Finset.sum_eq_zero fun b' _ => Finset.sum_eq_zero fun c' _ =>
      Finset.sum_eq_zero fun d' _ => Finset.sum_eq_zero fun ia' hia' =>
      Finset.sum_eq_zero fun ib' _ => Finset.sum_eq_zero fun ic' _ =>
      Finset.sum_eq_zero fun il' _ => ?_
    rw [if_neg]
    rintro ⟨h1, -⟩
    exact hne (offset_decomp_unique sh (Finset.mem_range.mp hia') hia h1).1

/-- Collapse of the eight-fold quartet/orbital sum against a fixed K target
`(μ, λ) = (offset a + ia, offset c + ic)`: only `(a, ia)` and `(c, ic)`
survive, leaving the sum over the remaining shells and orbitals. -/
theorem collapse_K (ns : ℕ) (sh : ℕ → Shell) {a c ia ic : ℕ}
    (ha : a < ns) (hc : c < ns) (hia : ia < (sh a).n_orbitals)
    (hic : ic < (sh c).n_orbitals)
    (v : ℕ → ℕ → ℕ → ℕ → ℕ → ℕ → ℕ → ℕ → ℝ) :
    (∑ a' ∈ Finset.range ns, ∑ b' ∈ Finset.range ns, ∑ c' ∈ Finset.range ns,
      ∑ d' ∈ Finset.range ns, ∑ ia' ∈ Finset.range (sh a').n_orbitals,
      ∑ ib' ∈ Finset.range (sh b').n_orbitals,
      ∑ ic' ∈ Finset.range (sh c').n_orbitals,
      ∑ il' ∈ Finset.range (sh d').n_orbitals,
        if shellOffset sh a' + ia' = shellOffset sh a + ia ∧
            shellOffset sh c' + ic' = shellOffset sh c + ic
        then v a' b' c' d' ia' ib' ic' il' else 0) =
    ∑ b' ∈ Finset.range ns, ∑ d' ∈ Finset.range ns,
      ∑ ib' ∈ Finset.range (sh b').n_orbitals,
      ∑ il' ∈ Finset.range (sh d').n_orbitals, v a b' c d' ia ib' ic il' := by
  rw [Finset.sum_eq_single_of_mem a (Finset.mem_range.mpr ha)]
  · have step_inner : ∀ b' c' d' : ℕ,
        (∑ ia' ∈ Finset.range (sh a).n_orbitals,
          ∑ ib' ∈ Finset.range (sh b').n_orbitals,
          ∑ ic' ∈ Finset.range (sh c').n_orbitals,
          ∑ il' ∈ Finset.range (sh d').n_orbitals,
            if shellOffset sh a + ia' = shellOffset sh a + ia ∧
                shellOffset sh c' + ic' = shellOffset sh c + ic
            then v a b' c' d' ia' ib' ic' il' else 0) =
        ∑ ib' ∈ Finset.range (sh b').n_orbitals,
          ∑ ic' ∈ Finset.range (sh c').n_orbitals,
          ∑ il' ∈ Finset.range (sh d').n_orbitals,
            if shellOffset sh c' + ic' = shellOffset sh c + ic
            then v a b' c' d' ia ib' ic' il' else 0 := by
      intro b' c' d'
      simp only [add_right_inj, ite_and]
      rw [Finset.sum_congr rfl fun ia' _ => sum3_if_push _ _ _ (ia' = ia) _]
      rw [Finset.sum_ite_eq' (Finset.range (sh a).n_orbitals) ia]
      rw [if_pos (Finset.mem_range.mpr hia)]
    rw [Finset.sum_congr rfl fun b' _ => Finset.sum_congr rfl fun c' _ =>
      Finset.sum_congr rfl fun d' _ => step_inner b' c' d']
    refine Finset.sum_congr rfl fun b' _ => ?_
    rw [Finset.sum_eq_single_of_mem c (Finset.mem_range.mpr hc)]
    · refine Finset.sum_congr rfl fun d' _ => Finset.sum_congr rfl fun ib' _ => ?_
      simp only [add_right_inj]
      rw [Finset.sum_congr rfl fun ic' _ => sum_if_push _ (ic' = ic) _]
      rw [Finset.sum_ite_eq' (Finset.range (sh c).n_orbitals) ic]
      rw [if_pos (Finset.mem_range.mpr hic)]
    · intro c' _ hne
      refine Finset.sum_eq_zero fun d' _ => Finset.sum_eq_zero fun ib' _ =>
        Finset.sum_eq_zero fun ic' hic' => Finset.sum_eq_zero fun il' _ => ?_
      rw [if_neg]
      intro h2
      exact hne (offset_decomp_unique sh (Finset.mem_range.mp hic') hic h2).1
  · intro a' _ hne
    refine Finset.sum_eq_zero fun b' _ => Finset.sum_eq_zero fun c' _ =>
      Finset.sum_eq_zero fun d' _ => Finset.sum_eq_zero fun ia' hia' =>
      Finset.sum_eq_zero fun ib' _ => Finset.sum_eq_zero fun ic' _ =>
      Finset.sum_eq_zero fun il' _ => ?_
    rw [if_neg]
    rintro ⟨h1, -⟩
    exact hne (offset_decomp_unique sh (Finset.mem_range.mp hia') hia h1).1


/-- Claim C3: the `build_jk` contraction. Whenever every quartet's screened
ERI block evaluates (to `B a b c d`), the J matrix accumulates
`J[μν] += P[λσ]·(μν|λσ)` and the K matrix `K[μλ] += P[νσ]·(μν|λσ)` over all
quartets and orbital indices — stated in closed form over the global AO
indices `μ = offset(a)+ia` etc. — and the closed-shell driver assembles the
iteration Fock matrix as `F = Hcore + 2J − K`. -/
theorem C3_build_jk_contraction (ns : ℕ) (sh : ℕ → Shell) (P : Mat)
    (B : ℕ → ℕ → ℕ → ℕ → Vec1) (J K : Mat)
    (hB : ∀ a b c d, a < ns → b < ns → c < ns → d < ns →
      eri_shell_shell_shell_shell (sh a) (sh b) (sh c) (sh d) = some (B a b c d))
    (hjk : build_jk ns sh P = some (J, K)) :
    (∀ a b ia ib, a < ns → b < ns → ia < (sh a).n_orbitals →
      ib < (sh b).n_orbitals →
      J (shellOffset sh a + ia) (shellOffset sh b + ib) =
        ∑ c ∈ Finset.range ns, ∑ d ∈ Finset.range ns,
          ∑ ic ∈ Finset.range (sh c).n_orbitals,
          ∑ il ∈ Finset.range (sh d).n_orbitals,
            P (shellOffset sh c + ic) (shellOffset sh d + il) *
              B a b c d (eriIdx (sh b).n_orbitals (sh c).n_orbitals
                (sh d).n_orbitals ia ib ic il)) ∧
    (∀ a c ia ic, a < ns → c < ns → ia < (sh a).n_orbitals →
      ic < (sh c).n_orbitals →
      K (shellOffset sh a + ia) (shellOffset sh c + ic) =
        ∑ b ∈ Finset.range ns, ∑ d ∈ Finset.range ns,
          ∑ ib ∈ Finset.range (sh b).n_orbitals,
          ∑ il ∈ Finset.range (sh d).n_orbitals,
            P (shellOffset sh b + ib) (shellOffset sh d + il) *
              B a b c d (eriIdx (sh b).n_orbitals (sh c).n_orbitals
                (sh d).n_orbitals ia ib ic il)) ∧
    (∀ (eig : EigOracle) (nao nelec : ℕ) (h S : Mat),
      scf_iterate eig ns sh nao nelec h S none P =
        some (build_density (solve_roothaan eig nao
            (fun i j => h i j + (2 * J i j - K i j)) S).1 nelec,
          0.5 * ∑ i ∈ Finset.range nao, ∑ j ∈ Finset.range nao,
            build_density (solve_roothaan eig nao
              (fun i j => h i j + (2 * J i j - K i j)) S).1 nelec i j *
              (h i j + (h i j + (2 * J i j - K i j))))) := by
  have hpure : build_jk ns sh P = some ((quartetList ns).foldl
      (fun jk q => jkAccum (shellOffset sh q.1) (shellOffset sh q.2.1)
        (shellOffset sh q.2.2.1) (shellOffset sh q.2.2.2) (sh q.2.1).n_orbitals
        (sh q.2.2.1).n_orbitals (sh q.2.2.2).n_orbitals P
        (B q.1 q.2.1 q.2.2.1 q.2.2.2)
        (idxList4 (sh q.1).n_orbitals (sh q.2.1).n_orbitals
          (sh q.2.2.1).n_orbitals (sh q.2.2.2).n_orbitals) jk)
      (zeroMat, zeroMat)) := by
    exact foldl_bind_map_some (quartetList ns)
      (fun q => eri_shell_shell_shell_shell (sh q.1) (sh q.2.1) (sh q.2.2.1)
        (sh q.2.2.2))
      (fun q blk jk => jkAccum (shellOffset sh q.1) (shellOffset sh q.2.1)
        (shellOffset sh q.2.2.1) (shellOffset sh q.2.2.2) (sh q.2.1).n_orbitals
        (sh q.2.2.1).n_orbitals (sh q.2.2.2).n_orbitals P blk
        (idxList4 (sh q.1).n_orbitals (sh q.2.1).n_orbitals
          (sh q.2.2.1).n_orbitals (sh q.2.2.2).n_orbitals) jk)
      (fun q => B q.1 q.2.1 q.2.2.1 q.2.2.2)
      (fun q hq => by
        obtain ⟨h1, h2, h3, h4⟩ := mem_idxList4 hq
        exact hB _ _ _ _ h1 h2 h3 h4)
      (zeroMat, zeroMat)
  have hJK := Option.some.inj (hjk.symm.trans hpure)
  have hJ : J = ((quartetList ns).foldl
      (fun jk q => jkAccum (shellOffset sh q.1) (shellOffset sh q.2.1)
        (shellOffset sh q.2.2.1) (shellOffset sh q.2.2.2) (sh q.2.1).n_orbitals
        (sh q.2.2.1).n_orbitals (sh q.2.2.2).n_orbitals P
        (B q.1 q.2.1 q.2.2.1 q.2.2.2)
        (idxList4 (sh q.1).n_orbitals (sh q.2.1).n_orbitals
          (sh q.2.2.1).n_orbitals (sh q.2.2.2).n_orbitals) jk)
      (zeroMat, zeroMat)).1 := congrArg Prod.fst hJK
  have hK : K = ((quartetList ns).foldl
      (fun jk q => jkAccum (shellOffset sh q.1) (shellOffset sh q.2.1)
        (shellOffset sh q.2.2.1) (shellOffset sh q.2.2.2) (sh q.2.1).n_orbitals
        (sh q.2.2.1).n_orbitals (sh q.2.2.2).n_orbitals P
        (B q.1 q.2.1 q.2.2.1 q.2.2.2)
        (idxList4 (sh q.1).n_orbitals (sh q.2.1).n_orbitals
          (sh q.2.2.1).n_orbitals (sh q.2.2.2).n_orbitals) jk)
      (zeroMat, zeroMat)).2 := congrArg Prod.snd hJK
  refine ⟨?_, ?_, ?_⟩
  · intro a b ia ib ha hb hia hib
    rw [hJ]
    have hacc := foldl_acc_entry (quartetList ns)
      (fun jk q => jkAccum (shellOffset sh q.1) (shellOffset sh q.2.1)
        (shellOffset sh q.2.2.1) (shellOffset sh q.2.2.2) (sh q.2.1).n_orbitals
        (sh q.2.2.1).n_orbitals (sh q.2.2.2).n_orbitals P
        (B q.1 q.2.1 q.2.2.1 q.2.2.2)
        (idxList4 (sh q.1).n_orbitals (sh q.2.1).n_orbitals
          (sh q.2.2.1).n_orbitals (sh q.2.2.2).n_orbitals) jk)
      Prod.fst
      (fun q => ((idxList4 (sh q.1).n_orbitals (sh q.2.1).n_orbitals
          (sh q.2.2.1).n_orbitals (sh q.2.2.2).n_orbitals).map fun e =>
        if shellOffset sh q.1 + e.1 = shellOffset sh a + ia ∧
            shellOffset sh q.2.1 + e.2.1 = shellOffset sh b + ib then
          P (shellOffset sh q.2.2.1 + e.2.2.1) (shellOffset sh q.2.2.2 + e.2.2.2) *
            B q.1 q.2.1 q.2.2.1 q.2.2.2
              (eriIdx (sh q.2.1).n_orbitals (sh q.2.2.1).n_orbitals
                (sh q.2.2.2).n_orbitals e.1 e.2.1 e.2.2.1 e.2.2.2)
        else 0).sum)
      (shellOffset sh a + ia) (shellOffset sh b + ib)
      (fun jk q hq => jkAccum_fst_entry _ _ _ _ _ _ _ _ _ _ _ _ _)
      (zeroMat, zeroMat)
    rw [hacc]
    rw [show Prod.fst (zeroMat, zeroMat) (shellOffset sh a + ia)
        (shellOffset sh b + ib) = 0 from rfl, zero_add]
    rw [show quartetList ns = idxList4 ns ns ns ns from rfl, idxList4_map_sum]
    rw [Finset.sum_congr rfl fun a2 _ => Finset.sum_congr rfl fun b2 _ =>
      Finset.sum_congr rfl fun c2 _ => Finset.sum_congr rfl fun d2 _ =>
        idxList4_map_sum (sh a2).n_orbitals (sh b2).n_orbitals
          (sh c2).n_orbitals (sh d2).n_orbitals _]
    exact collapse_J ns sh ha hb hia hib fun a2 b2 c2 d2 ia2 ib2 ic2 il2 =>
      P (shellOffset sh c2 + ic2) (shellOffset sh d2 + il2) *
        B a2 b2 c2 d2 (eriIdx (sh b2).n_orbitals (sh c2).n_orbitals
          (sh d2).n_orbitals ia2 ib2 ic2 il2)
  · intro a c ia ic ha hc hia hic
    rw [hK]
    have hacc := foldl_acc_entry (quartetList ns)
      (fun jk q => jkAccum (shellOffset sh q.1) (shellOffset sh q.2.1)
        (shellOffset sh q.2.2.1) (shellOffset sh q.2.2.2) (sh q.2.1).n_orbitals
        (sh q.2.2.1).n_orbitals (sh q.2.2.2).n_orbitals P
        (B q.1 q.2.1 q.2.2.1 q.2.2.2)
        (idxList4 (sh q.1).n_orbitals (sh q.2.1).n_orbitals
          (sh q.2.2.1).n_orbitals (sh q.2.2.2).n_orbitals) jk)
      Prod.snd
      (fun q => ((idxList4 (sh q.1).n_orbitals (sh q.2.1).n_orbitals
          (sh q.2.2.1).n_orbitals (sh q.2.2.2).n_orbitals).map fun e =>
        if shellOffset sh q.1 + e.1 = shellOffset sh a + ia ∧
            shellOffset sh q.2.2.1 + e.2.2.1 = shellOffset sh c + ic then
          P (shellOffset sh q.2.1 + e.2.1) (shellOffset sh q.2.2.2 + e.2.2.2) *
            B q.1 q.2.1 q.2.2.1 q.2.2.2
              (eriIdx (sh q.2.1).n_orbitals (sh q.2.2.1).n_orbitals
                (sh q.2.2.2).n_orbitals e.1 e.2.1 e.2.2.1 e.2.2.2)
        else 0).sum)
      (shellOffset sh a + ia) (shellOffset sh c + ic)
      (fun jk q hq => jkAccum_snd_entry _ _ _ _ _ _ _ _ _ _ _ _ _)
      (zeroMat, zeroMat)
    rw [hacc]
    rw [show Prod.snd (zeroMat, zeroMat) (shellOffset sh a + ia)
        (shellOffset sh c + ic) = 0 from rfl, zero_add]
    rw [show quartetList ns = idxList4 ns ns ns ns from rfl, idxList4_map_sum]
    rw [Finset.sum_congr rfl fun a2 _ => Finset.sum_congr rfl fun b2 _ =>
      Finset.sum_congr rfl fun c2 _ => Finset.sum_congr rfl fun d2 _ =>
        idxList4_map_sum (sh a2).n_orbitals (sh b2).n_orbitals
          (sh c2).n_orbitals (sh d2).n_orbitals _]
    exact collapse_K ns sh ha hc hia hic fun a2 b2 c2 d2 ia2 ib2 ic2 il2 =>
      P (shellOffset sh b2 + ib2) (shellOffset sh d2 + il2) *
        B a2 b2 c2 d2 (eriIdx (sh b2).n_orbitals (sh c2).n_orbitals
          (sh d2).n_orbitals ia2 ib2 ic2 il2)
  · intro eig nao nelec h S
    exact scf_iterate_hf eig ns sh nao nelec h S P J K _ hjk rfl


/-- Witness for C3 at the concrete one-shell system: the theorem applies
with every hypothesis discharged at `a = b = 0`, `ia = ib = 0`. -/
theorem C3_build_jk_contraction_witness :
    zeroMat (shellOffset (fun _ => s1Shell) 0 + 0)
        (shellOffset (fun _ => s1Shell) 0 + 0) =
      ∑ c ∈ Finset.range 1, ∑ d ∈ Finset.range 1, ∑ ic ∈ Finset.range 1,
        ∑ il ∈ Finset.range 1,
          zeroMat (shellOffset (fun _ => s1Shell) c + ic)
              (shellOffset (fun _ => s1Shell) d + il) *
            (if eriIdx 1 1 1 0 0 ic il < 1 then 0 + sssVal else 0) :=
  (C3_build_jk_contraction 1 (fun _ => s1Shell) zeroMat
    (fun _ _ _ _ => fun m => if m < 1 then 0 + sssVal else 0) zeroMat zeroMat
    (fun _ _ _ _ _ _ _ _ => eri4_s1_eval) build_jk_s1_zero).1 0 0 0 0
    (by norm_num) (by norm_num) (by decide) (by decide)

/-- Claim C4: the per-iteration electronic energy. In the HF path the
energy is `½·Σ P_new·(H + F)` with `F = H + 2J − K` and no correction term;
with an active functional the Fock matrix additionally carries the Vxc
matrix and the energy receives the correction `Exc − ∫ρ·vxc` exactly
once. -/
theorem C4_energy_correction_once (eig : EigOracle) (ns : ℕ) (sh : ℕ → Shell)
    (nao nelec : ℕ) (h S p J K : Mat)
    (hjk : build_jk ns sh p = some (J, K)) :
    scf_iterate eig ns sh nao nelec h S none p =
      some (build_density (solve_roothaan eig nao
          (fun i j => h i j + (2 * J i j - K i j)) S).1 nelec,
        0.5 * ∑ i ∈ Finset.range nao, ∑ j ∈ Finset.range nao,
          build_density (solve_roothaan eig nao
            (fun i j => h i j + (2 * J i j - K i j)) S).1 nelec i j *
            (h i j + (h i j + (2 * J i j - K i j)))) ∧
    ∀ vx : VxcOracle,
      scf_iterate eig ns sh nao nelec h S (some vx) p =
        some (build_density (solve_roothaan eig nao
            (fun i j => (h i j + (2 * J i j - K i j)) + (vx p).1 i j) S).1 nelec,
          0.5 * ∑ i ∈ Finset.range nao, ∑ j ∈ Finset.range nao,
            build_density (solve_roothaan eig nao
              (fun i j => (h i j + (2 * J i j - K i j)) + (vx p).1 i j) S).1
                nelec i j *
              (h i j + ((h i j + (2 * J i j - K i j)) + (vx p).1 i j)) +
            ((vx p).2.1 - (vx p).2.2)) := by
  constructor
  · exact scf_iterate_hf eig ns sh nao nelec h S p J K _ hjk rfl
  · intro vx
    exact scf_iterate_dft eig ns sh nao nelec h S p J K vx _ hjk rfl

/-- Witness for C4 at the concrete one-shell system, with a concrete
functional oracle exercising the DFT branch. -/
theorem C4_energy_correction_once_witness :
    (∃ x, scf_iterate eig1 1 (fun _ => s1Shell) 1 2 zeroMat oneMat none
      zeroMat = some x) ∧
    ∃ y, scf_iterate eig1 1 (fun _ => s1Shell) 1 2 zeroMat oneMat
        (some fun _ => (oneMat, 7, 4)) zeroMat = some y :=
  ⟨⟨_, (C4_energy_correction_once eig1 1 (fun _ => s1Shell) 1 2 zeroMat oneMat
      zeroMat zeroMat zeroMat build_jk_s1_zero).1⟩,
   ⟨_, (C4_energy_correction_once eig1 1 (fun _ => s1Shell) 1 2 zeroMat oneMat
      zeroMat zeroMat zeroMat build_jk_s1_zero).2 fun _ => (oneMat, 7, 4)⟩⟩


/-! ## C8: the DIIS accelerator and its elimination solver

The correctness core: if `solve_linear` completes, the matrix was
invertible; contrapositively a singular DIIS system yields `None`, and the
caller then falls back to the un-extrapolated Fock matrix. -/

/-- The pivot row chosen by the partial-pivot search is at or below the
current row. -/
theorem pivotChoice_ge (n : ℕ) (A : Matrix (Fin n) (Fin n) ℝ) (i : Fin n) :
    i ≤ pivotChoice n A i := by
  rw [pivotChoice]
  have key : ∀ (l : List (Fin n)) (mx : Fin n), i ≤ mx → (∀ k ∈ l, i ≤ k) →
      i ≤ l.foldl (fun mx k => if |A k i| > |A mx i| then k else mx) mx := by
    intro l
    induction l with
    | nil => exact fun mx h _ => h
    | cons e t ih =>
      intro mx h hall
      rw [List.foldl_cons]
      refine ih _ ?_ fun k hk => hall k (List.mem_cons_of_mem e hk)
      by_cases hc : |A e i| > |A mx i|
      · rw [if_pos hc]
        exact hall e (List.mem_cons_self e t)
      · rw [if_neg hc]
        exact h
  refine key _ i le_rfl fun k hk => ?_
  have := List.mem_filter.mp hk
  exact le_of_lt (by simpa using this.2)

/-- The normalization step is a row rescaling, provided the already-processed
columns of the pivot row vanish. -/
theorem normalize_eq_updateRow (n : ℕ) (A1 : Matrix (Fin n) (Fin n) ℝ)
    (b1 : Fin n → ℝ) (fi : Fin n)
    (hzero : ∀ j : Fin n, (j : ℕ) < (fi : ℕ) → A1 fi j = 0) :
    (normalizeStep n A1 b1 fi).1 = A1.updateRow fi ((A1 fi fi)⁻¹ • A1 fi) := by
  ext k j
  rw [normalizeStep]
  dsimp only
  by_cases hk : k = fi
  · subst hk
    rw [Matrix.updateRow_self]
    by_cases hj : k ≤ j
    · rw [Matrix.of_apply, if_pos ⟨rfl, hj⟩]
      rw [Pi.smul_apply, smul_eq_mul, div_eq_inv_mul]
    · rw [Matrix.of_apply, if_neg (fun hc => hj hc.2)]
      have hjlt : (j : ℕ) < (k : ℕ) := by
        rcases Fin.lt_or_le j k with h | h
        · exact h
        · exact absurd h hj
      rw [Pi.smul_apply, smul_eq_mul, hzero j hjlt, mul_zero]
  · rw [Matrix.updateRow_ne hk, Matrix.of_apply, if_neg (fun hc => hk hc.1)]

/-- The elimination fold: the pivot row is untouched, the already-processed
columns are untouched, the pivot column of every other row ends at zero, and
the determinant is unchanged. -/
theorem elim_fold (n : ℕ) (fi : Fin n) (A2 : Matrix (Fin n) (Fin n) ℝ)
    (hdiag : A2 fi fi = 1)
    (hrowz : ∀ j : Fin n, (j : ℕ) < (fi : ℕ) → A2 fi j = 0) :
    ∀ (l : List (Fin n)) (cur : Matrix (Fin n) (Fin n) ℝ × (Fin n → ℝ)),
      cur.1 fi = A2 fi →
      (∀ (k j : Fin n), (j : ℕ) < (fi : ℕ) → cur.1 k j = A2 k j) →
      (∀ k : Fin n, k ∉ l → k ≠ fi → cur.1 k fi = 0) →
      cur.1.det = A2.det →
      ((l.foldl (elimRow n fi) cur).1 fi = A2 fi ∧
       (∀ (k j : Fin n), (j : ℕ) < (fi : ℕ) →
          (l.foldl (elimRow n fi) cur).1 k j = A2 k j) ∧
       (∀ k : Fin n, k ≠ fi → (l.foldl (elimRow n fi) cur).1 k fi = 0) ∧
       (l.foldl (elimRow n fi) cur).1.det = A2.det) := by
  intro l
  induction l with
  | nil =>
    intro cur h1 h2 h3 h4
    exact ⟨h1, h2, fun k hk => h3 k (by simp) hk, h4⟩
  | cons e t ih =>
    intro cur h1 h2 h3 h4
    rw [List.foldl_cons]
    by_cases he : e = fi
    · rw [show elimRow n fi cur e = cur from by rw [elimRow, if_pos he]]
      refine ih cur h1 h2 (fun k hk hkfi => h3 k ?_ hkfi) h4
      intro hm
      rcases List.mem_cons.mp hm with hke | hkt
      · exact hkfi (hke.trans he)
      · exact hk hkt
    · have hcur1 : (elimRow n fi cur e).1 = Matrix.of fun q j =>
          if q = e ∧ fi ≤ j then cur.1 q j - cur.1 e fi * cur.1 fi j
          else cur.1 q j := by
        rw [elimRow, if_neg he]
      have hfi1 : cur.1 fi fi = 1 := by
        rw [congrFun h1 fi]
        exact hdiag
      have h1n : (elimRow n fi cur e).1 fi = A2 fi := by
        funext j
        rw [hcur1, Matrix.of_apply, if_neg (fun hc => he hc.1.symm)]
        exact congrFun h1 j
      have h2n : ∀ (k j : Fin n), (j : ℕ) < (fi : ℕ) →
          (elimRow n fi cur e).1 k j = A2 k j := by
        intro k j hj
        rw [hcur1, Matrix.of_apply, if_neg]
        · exact h2 k j hj
        · rintro ⟨-, hle⟩
          have : (fi : ℕ) ≤ (j : ℕ) := hle
          omega
      have h3n : ∀ k : Fin n, k ∉ t → k ≠ fi → (elimRow n fi cur e).1 k fi = 0 := by
        intro k hk hkfi
        by_cases hke : k = e
        · subst hke
          rw [hcur1, Matrix.of_apply, if_pos ⟨rfl, le_refl fi⟩, hfi1]
          ring
        · rw [hcur1, Matrix.of_apply, if_neg (fun hc => hke hc.1)]
          refine h3 k ?_ hkfi
          intro hm
          rcases List.mem_cons.mp hm with h' | h'
          · exact hke h'
          · exact hk h'
      have h4n : (elimRow n fi cur e).1.det = A2.det := by
        have heq : (elimRow n fi cur e).1 =
            cur.1.updateRow e (cur.1 e + (-(cur.1 e fi)) • cur.1 fi) := by
          ext q j
          rw [hcur1]
          by_cases hq : q = e
          · subst hq
            rw [Matrix.updateRow_self]
            by_cases hj : fi ≤ j
            · rw [Matrix.of_apply, if_pos ⟨rfl, hj⟩, Pi.add_apply, Pi.smul_apply,
                smul_eq_mul]
              ring
            · rw [Matrix.of_apply, if_neg (fun hc => hj hc.2)]
              have hjlt : (j : ℕ) < (fi : ℕ) := by
                rcases Fin.lt_or_le j fi with h' | h'
                · exact h'
                · exact absurd h' hj
              have hz : cur.1 fi j = 0 := by
                rw [congrFun h1 j]
                exact hrowz j hjlt
              rw [Pi.add_apply, Pi.smul_apply, smul_eq_mul, hz, mul_zero, add_zero]
          · rw [Matrix.updateRow_ne hq, Matrix.of_apply, if_neg (fun hc => hq hc.1)]
        rw [heq, Matrix.det_updateRow_add_smul_self cur.1 he (-(cur.1 e fi))]
        exact h4
      exact ih (elimRow n fi cur e) h1n h2n h3n h4n


/-- If the elimination loop of `solve_linear` completes (returns `some`),
the matrix it started from is nonsingular. Stated with the invariant that
the first `i` columns have already been reduced to identity columns. -/
theorem geLoop_some_det (n : ℕ) : ∀ (fuel i : ℕ)
    (A : Matrix (Fin n) (Fin n) ℝ) (b r : Fin n → ℝ), i + fuel = n →
    (∀ (k j : Fin n), (j : ℕ) < i → A k j = if k = j then 1 else 0) →
    geLoop n fuel i A b = some r → A.det ≠ 0 := by
  intro fuel
  induction fuel with
  | zero =>
    intro i A b r hin hInv _
    have hA : A = 1 := by
      ext k j
      rw [hInv k j (by omega), Matrix.one_apply]
    rw [hA, Matrix.det_one]
    norm_num
  | succ fuel ih =>
    intro i A b r hin hInv hrun
    have hi : i < n := by omega
    simp only [geLoop] at hrun
    rw [dif_pos hi] at hrun
    set fi : Fin n := ⟨i, hi⟩ with hfi
    have hfival : (fi : ℕ) = i := rfl
    set piv := pivotChoice n A fi with hpiv
    by_cases hp : |A piv fi| < 1e-12
    · rw [if_pos hp] at hrun
      exact absurd hrun (by simp)
    · rw [if_neg hp] at hrun
      set A1 := swapRowsM n A fi piv with hA1
      set b1 := b ∘ Equiv.swap fi piv with hb1
      set st0 := normalizeStep n A1 b1 fi with hst0
      set st := (List.finRange n).foldl (elimRow n fi) st0 with hst
      have hpn : i ≤ (piv : ℕ) := by
        have h2 := Fin.le_def.mp (pivotChoice_ge n A fi)
        rw [← hpiv] at h2
        exact h2
      have hswap_ge : ∀ k : Fin n, i ≤ (k : ℕ) →
          i ≤ ((Equiv.swap fi piv k : Fin n) : ℕ) := by
        intro k hk
        rcases eq_or_ne k fi with h | hne1
        · rw [h, Equiv.swap_apply_left]
          exact hpn
        · rcases eq_or_ne k piv with h | hne2
          · rw [h, Equiv.swap_apply_right]
          · rw [Equiv.swap_apply_of_ne_of_ne hne1 hne2]
            exact hk
      have hInv1 : ∀ (k j : Fin n), (j : ℕ) < i →
          A1 k j = if k = j then 1 else 0 := by
        intro k j hj
        rw [hA1, swapRowsM, Matrix.submatrix_apply, id_eq]
        by_cases hk : (k : ℕ) < i
        · have h1 : Equiv.swap fi piv k = k := by
            apply Equiv.swap_apply_of_ne_of_ne
            · intro h
              rw [h, hfival] at hk
              exact lt_irrefl i hk
            · intro h
              rw [h] at hk
              omega
          rw [h1]
          exact hInv k j hj
        · push_neg at hk
          have h2 : i ≤ ((Equiv.swap fi piv k : Fin n) : ℕ) := hswap_ge k hk
          have hσ : ¬ (Equiv.swap fi piv k = j) := by
            intro h
            rw [h] at h2
            omega
          have hkj : ¬ (k = j) := by
            intro h
            rw [h] at hk
            omega
          rw [hInv (Equiv.swap fi piv k) j hj, if_neg hσ, if_neg hkj]
      have hrowz1 : ∀ j : Fin n, (j : ℕ) < (fi : ℕ) → A1 fi j = 0 := by
        intro j hj
        rw [hfival] at hj
        have hne : ¬ (fi = j) := by
          intro h
          rw [← h, hfival] at hj
          exact lt_irrefl i hj
        rw [hInv1 fi j hj, if_neg hne]
      have hdval : A1 fi fi = A piv fi := by
        rw [hA1, swapRowsM, Matrix.submatrix_apply, Equiv.swap_apply_left, id_eq]
      have hd0 : A1 fi fi ≠ 0 := by
        rw [hdval]
        intro h0
        apply hp
        rw [h0, abs_zero]
        norm_num
      have hnorm : st0.1 = A1.updateRow fi ((A1 fi fi)⁻¹ • A1 fi) := by
        rw [hst0]
        exact normalize_eq_updateRow n A1 b1 fi hrowz1
      have hdiag2 : st0.1 fi fi = 1 := by
        rw [hnorm, Matrix.updateRow_self, Pi.smul_apply, smul_eq_mul]
        exact inv_mul_cancel₀ hd0
      have hrowz2 : ∀ j : Fin n, (j : ℕ) < (fi : ℕ) → st0.1 fi j = 0 := by
        intro j hj
        rw [hnorm, Matrix.updateRow_self, Pi.smul_apply, smul_eq_mul,
          hrowz1 j hj, mul_zero]
      have hInv2 : ∀ (k j : Fin n), (j : ℕ) < i →
          st0.1 k j = if k = j then 1 else 0 := by
        intro k j hj
        by_cases hk : k = fi
        · rw [hk]
          have hne : ¬ (fi = j) := by
            intro h
            rw [← h, hfival] at hj
            exact lt_irrefl i hj
          rw [hrowz2 j (by rw [hfival]; exact hj), if_neg hne]
        · rw [hnorm, Matrix.updateRow_ne hk]
          exact hInv1 k j hj
      obtain ⟨hE1, hE2, hE3, hE4⟩ :=
        elim_fold n fi st0.1 hdiag2 hrowz2 (List.finRange n) st0 rfl
          (fun _ _ _ => rfl) (fun k hk _ => absurd (List.mem_finRange k) hk) rfl
      rw [← hst] at hE1 hE2 hE3 hE4
      have hInv3 : ∀ (k j : Fin n), (j : ℕ) < i + 1 →
          st.1 k j = if k = j then 1 else 0 := by
        intro k j hj
        rcases Nat.lt_or_ge (j : ℕ) i with hji | hji
        · rw [hE2 k j (by rw [hfival]; exact hji)]
          exact hInv2 k j hji
        · have hjfi : j = fi := by
            apply Fin.ext
            rw [hfival]
            omega
          rw [hjfi]
          by_cases hk : k = fi
          · rw [hk, if_pos rfl, congrFun hE1 fi]
            exact hdiag2
          · rw [if_neg hk]
            exact hE3 k hk
      have hdetA1 : A1.det =
          ((Equiv.Perm.sign (Equiv.swap fi piv) : ℤ) : ℝ) * A.det := by
        rw [hA1, swapRowsM]
        exact_mod_cast Matrix.det_permute (Equiv.swap fi piv) A
      have hdet2 : st0.1.det = (A1 fi fi)⁻¹ * A1.det := by
        rw [hnorm, Matrix.det_updateRow_smul, Matrix.updateRow_eq_self]
      have hfinal := ih (i + 1) st.1 st.2 r (by omega) hInv3 hrun
      intro hA0
      apply hfinal
      rw [hE4, hdet2, hdetA1, hA0, mul_zero, mul_zero]

/-- A singular system makes `solve_linear` return `None`. -/
theorem solve_linear_det_ne_zero (n : ℕ) (A : Matrix (Fin n) (Fin n) ℝ)
    (b : Fin n → ℝ) : A.det = 0 → solve_linear n A b = none := by
  intro h0
  rcases hres : solve_linear n A b with _ | r
  · rfl
  · exact absurd h0 (geLoop_some_det n n 0 A b r (by omega)
      (fun k j hj => absurd hj (by omega)) hres)


/-- **C8.** DIIS extrapolation returns "not available" (`none`) whenever
fewer than 2 (Fock, error) pairs are stored; when the (M+1)×(M+1) DIIS
linear system is singular it reports failure (`none`) rather than returning
coefficients; and in that case the caller uses the un-extrapolated Fock
matrix. -/
theorem C8_diis_failure_handling (d : Diis) (fock : Mat) :
    (d.errors.length < 2 → d.extrapolate = none) ∧
    ((diisB d).det = 0 → d.extrapolate = none) ∧
    (d.extrapolate = none → diisFockChoice d fock = fock) := by
  refine ⟨?_, ?_, ?_⟩
  · intro h
    simp only [Diis.extrapolate]
    rw [if_pos h]
  · intro h
    simp only [Diis.extrapolate]
    by_cases hlen : d.errors.length < 2
    · rw [if_pos hlen]
    · rw [if_neg hlen, solve_linear_det_ne_zero _ _ _ h, Option.map_none']
  · intro h
    rw [diisFockChoice, h]
    rfl

/-- Witness for C8: a DIIS history with two identical error vectors makes
the B-matrix singular, so extrapolation returns `none` and the caller keeps
its Fock matrix. -/
theorem C8_diis_failure_handling_witness :
    (diisB ⟨5, [oneMat, oneMat], [[1], [1]]⟩).det = 0 ∧
    Diis.extrapolate ⟨5, [oneMat, oneMat], [[1], [1]]⟩ = none ∧
    diisFockChoice ⟨5, [oneMat, oneMat], [[1], [1]]⟩ oneMat = oneMat := by
  have hdet : (diisB ⟨5, [oneMat, oneMat], [[1], [1]]⟩).det = 0 := by
    show (diisB ⟨5, [oneMat, oneMat], [[1], [1]]⟩ :
      Matrix (Fin 3) (Fin 3) ℝ).det = 0
    rw [Matrix.det_fin_three]
    norm_num [diisB, dotL]
  have hext := (C8_diis_failure_handling ⟨5, [oneMat, oneMat], [[1], [1]]⟩
    oneMat).2.1 hdet
  exact ⟨hdet, hext, (C8_diis_failure_handling ⟨5, [oneMat, oneMat], [[1], [1]]⟩
    oneMat).2.2 hext⟩

end
